import Mathlib

set_option maxHeartbeats 1000000

/-!
Verification of the prism repository (a Go tool for 3D color LUTs).

Shallow embedding conventions:
* Go float64 values are modelled as exact rationals; the algorithms under
  study are pure arithmetic, and the properties claimed are stated at the
  real-arithmetic level of the design.
* Go int values are modelled as Int (no overflow is relevant at the sizes
  involved).
* A Go slice read with a possibly negative index is modelled with Option:
  none models the runtime panic.
* Text lines are modelled as lists of characters; the line scanner of
  bufio.Scanner is modelled by passing the list of scanned lines.
-/

/-- Character strings of the model, as plain lists of characters. -/
abbrev Str : Type := List Char

/-- One RGB sample of a LUT; source type Sample in cube.go. -/
structure Sample where
  R : ℚ
  G : ℚ
  B : ℚ
deriving DecidableEq

instance : Inhabited Sample := ⟨⟨0, 0, 0⟩⟩

/-- Sample.Sum from cube.go: elementwise addition. The Go method mutates the
receiver in place and returns it; the model returns the new value. -/
def Sample.sum (s s2 : Sample) : Sample :=
  ⟨s.R + s2.R, s.G + s2.G, s.B + s2.B⟩

/-- Sample.Blend from cube.go: weighted combination with weights w1 and w2. -/
def Sample.blend (s s2 : Sample) (w1 w2 : ℚ) : Sample :=
  ⟨s.R * w1 + s2.R * w2, s.G * w1 + s2.G * w2, s.B * w1 + s2.B * w2⟩

/-- Sample.Rescale from cube.go: linear remap of the channels from the global
range minVal..maxVal onto the domain; when the range is degenerate every
channel collapses to the domain midpoint. -/
def Sample.rescale (s : Sample) (minVal maxVal : ℚ) (domainMin domainMax : Sample) : Sample :=
  if maxVal = minVal then
    ⟨domainMin.R + (domainMax.R - domainMin.R) / 2,
     domainMin.G + (domainMax.G - domainMin.G) / 2,
     domainMin.B + (domainMax.B - domainMin.B) / 2⟩
  else
    let globalRange := maxVal - minVal
    ⟨domainMin.R + (s.R - minVal) / globalRange * (domainMax.R - domainMin.R),
     domainMin.G + (s.G - minVal) / globalRange * (domainMax.G - domainMin.G),
     domainMin.B + (s.B - minVal) / globalRange * (domainMax.B - domainMin.B)⟩

/-- The Cube structure of cube.go. -/
structure Cube where
  Title : Str
  Meta : Str
  LUT3Dsize : ℤ
  DomainMin : Sample
  DomainMax : Sample
  Samples : List Sample
deriving DecidableEq

/-- The package level sentinel errors of the cube package; scanErr stands for
any error value returned by fmt.Sscanf. -/
inductive CubeErr where
  | emptyLut
  | differentSampleSize
  | unrecognisedLine
  | scanErr
deriving DecidableEq

/-- Cube.Sum from cube.go. The Go method mutates the receiver and returns
(receiver, error); on the error paths the receiver is returned before any
sample was touched. The model returns the resulting cube and the error. -/
def Cube.Sum (c : Cube) (c2 : Cube) : Cube × Option CubeErr :=
  if c.Samples.length = 0 ∨ c2.Samples.length = 0 then (c, some .emptyLut)
  else if c.Samples.length ≠ c2.Samples.length then (c, some .differentSampleSize)
  else ({ c with Samples := List.zipWith Sample.sum c.Samples c2.Samples }, none)

/-- Cube.Blend from cube.go: normalizes the two intensities to weights summing
to one and blends samplewise. Same error paths as Cube.Sum. The Go loop runs
over equal length slices, modelled by zipWith. -/
def Cube.Blend (c : Cube) (c2 : Cube) (i1 i2 : ℚ) : Cube × Option CubeErr :=
  if c.Samples.length = 0 ∨ c2.Samples.length = 0 then (c, some .emptyLut)
  else if c.Samples.length ≠ c2.Samples.length then (c, some .differentSampleSize)
  else
    let total := i1 + i2
    let w1 := i1 / total
    let w2 := i2 / total
    ({ c with Samples := List.zipWith (fun a b => a.blend b w1 w2) c.Samples c2.Samples }, none)

/-- The per sample channel minimum used inside Cube.minmax: min(min(R,G),B). -/
def Cube.chanMin (s : Sample) : ℚ := min (min s.R s.G) s.B

/-- The per sample channel maximum used inside Cube.minmax: max(max(R,G),B). -/
def Cube.chanMax (s : Sample) : ℚ := max (max s.R s.G) s.B

/-- Cube.minmax from cube.go: global minimum and maximum channel value over
all samples, both initialised with Samples[0].R; (0,1) for an empty cube.
The single Go loop updating both accumulators is modelled by two folds. -/
def Cube.minmax (c : Cube) : ℚ × ℚ :=
  if c.Samples.length = 0 then (0, 1)
  else
    (c.Samples.foldl (fun a s => min a (Cube.chanMin s)) (c.Samples.headD default).R,
     c.Samples.foldl (fun a s => max a (Cube.chanMax s)) (c.Samples.headD default).R)

/-- Cube.Rescale from cube.go: rescales every sample with the global minmax. -/
def Cube.Rescale (c : Cube) : Cube :=
  let mm := c.minmax
  { c with Samples := c.Samples.map (fun s => s.rescale mm.1 mm.2 c.DomainMin c.DomainMax) }

/-- The flat index computed by Cube.getSample: r + g*N + b*N*N. -/
def Cube.flatIdx (c : Cube) (r g b : ℤ) : ℤ :=
  r + g * c.LUT3Dsize + b * c.LUT3Dsize * c.LUT3Dsize

/-- Cube.getSample from cube.go. The Go code returns the zero sample when the
flat index is at least len(Samples) and otherwise evaluates Samples[idx];
for a negative index that slice read panics at runtime, modelled by none. -/
def Cube.getSample (c : Cube) (r g b : ℤ) : Option Sample :=
  let idx := c.flatIdx r g b
  if (c.Samples.length : ℤ) ≤ idx then some ⟨0, 0, 0⟩
  else if idx < 0 then none
  else some (c.Samples.getD idx.toNat default)

/-- The domain normalization of Cube.interpolate:
(v - lo) / (hi - lo) * size. -/
def normIdx (lo hi sz v : ℚ) : ℚ := (v - lo) / (hi - lo) * sz

/-- The clamp to the valid index range 0..size of Cube.interpolate. -/
def clampIdx (sz x : ℚ) : ℚ := max 0 (min sz x)

/-- The continuous lattice coordinate a color channel is mapped to by
Cube.interpolate: normalization followed by the clamp. -/
def latticeCoord (lo hi sz v : ℚ) : ℚ := clampIdx sz (normIdx lo hi sz v)

/-- interpolateSamples from cube.go: linear interpolation of two samples. -/
def lerp (s1 s2 : Sample) (t : ℚ) : Sample :=
  ⟨s1.R + t * (s2.R - s1.R), s1.G + t * (s2.G - s1.G), s1.B + t * (s2.B - s1.B)⟩

/-- The body of Cube.interpolate after the three input channels have been
mapped to clamped lattice coordinates. Go truncates the nonnegative clamped
coordinate with int(), which is the floor; r1 = min(float64(r0+1), size) is
an integer valued min, modelled directly over Int. -/
def Cube.interpCore (c : Cube) (rIdx gIdx bIdx : ℚ) : Option Sample := do
  let r0 : ℤ := ⌊rIdx⌋
  let g0 : ℤ := ⌊gIdx⌋
  let b0 : ℤ := ⌊bIdx⌋
  let r1 : ℤ := min (r0 + 1) (c.LUT3Dsize - 1)
  let g1 : ℤ := min (g0 + 1) (c.LUT3Dsize - 1)
  let b1 : ℤ := min (b0 + 1) (c.LUT3Dsize - 1)
  let rFrac : ℚ := rIdx - (r0 : ℚ)
  let gFrac : ℚ := gIdx - (g0 : ℚ)
  let bFrac : ℚ := bIdx - (b0 : ℚ)
  let c000 ← c.getSample r0 g0 b0
  let c001 ← c.getSample r0 g0 b1
  let c010 ← c.getSample r0 g1 b0
  let c011 ← c.getSample r0 g1 b1
  let c100 ← c.getSample r1 g0 b0
  let c101 ← c.getSample r1 g0 b1
  let c110 ← c.getSample r1 g1 b0
  let c111 ← c.getSample r1 g1 b1
  let c00 := lerp c000 c100 rFrac
  let c01 := lerp c001 c101 rFrac
  let c10 := lerp c010 c110 rFrac
  let c11 := lerp c011 c111 rFrac
  let c0 := lerp c00 c10 gFrac
  let c1 := lerp c01 c11 gFrac
  pure (lerp c0 c1 bFrac)

/-- Cube.interpolate from cube.go: trilinear interpolation in the LUT. -/
def Cube.interpolate (c : Cube) (r g b : ℚ) : Option Sample :=
  let sz : ℚ := (c.LUT3Dsize : ℚ) - 1
  c.interpCore (latticeCoord c.DomainMin.R c.DomainMax.R sz r)
               (latticeCoord c.DomainMin.G c.DomainMax.G sz g)
               (latticeCoord c.DomainMin.B c.DomainMax.B sz b)

/-! ## Test cubes used by counterexamples and witnesses -/

/-- A cube with no samples. -/
def cubeE : Cube := ⟨[], [], 0, ⟨0, 0, 0⟩, ⟨1, 1, 1⟩, []⟩

/-- A cube with one sample. -/
def cubeOne : Cube := ⟨[], [], 1, ⟨0, 0, 0⟩, ⟨1, 1, 1⟩, [⟨1/2, 0, 1⟩]⟩

/-- A cube with two samples. -/
def cubeTwo : Cube := ⟨[], [], 1, ⟨0, 0, 0⟩, ⟨1, 1, 1⟩, [⟨0, 0, 0⟩, ⟨1, 1, 1⟩]⟩

/-! ## C7: blending a cube with itself -/

theorem blend_self_sample (a : Sample) (w1 w2 : ℚ) (h : w1 + w2 = 1) :
    a.blend a w1 w2 = a := by
  cases a with
  | mk R G B =>
    simp only [Sample.blend, Sample.mk.injEq]
    refine ⟨?_, ?_, ?_⟩ <;> rw [← mul_add, h, mul_one]

theorem zipWith_blend_self (w1 w2 : ℚ) (h : w1 + w2 = 1) :
    ∀ l : List Sample, List.zipWith (fun a b => a.blend b w1 w2) l l = l
  | [] => rfl
  | a :: t => by
    simp only [List.zipWith_cons_cons, zipWith_blend_self w1 w2 h t,
      blend_self_sample a w1 w2 h]

/-- C7: for every nonempty Cube A and all positive intensities i1 i2,
Blend(A, A, i1, i2) succeeds (no error) and returns a cube whose sample
sequence equals the original samples of A: blending a LUT with itself is a
no-op regardless of the weights, which are normalized to i1/(i1+i2) and
i2/(i1+i2). -/
theorem c7_blend_self_noop (A : Cube) (i1 i2 : ℚ) (h1 : 0 < i1) (h2 : 0 < i2)
    (hne : A.Samples ≠ []) : A.Blend A i1 i2 = (A, none) := by
  have htot : i1 + i2 ≠ 0 := by
    have : 0 < i1 + i2 := by linarith
    exact this.ne'
  have hw : i1 / (i1 + i2) + i2 / (i1 + i2) = 1 := by field_simp
  have hlen : ¬(A.Samples.length = 0 ∨ A.Samples.length = 0) := by
    simp [List.length_eq_zero, hne]
  unfold Cube.Blend
  rw [if_neg hlen, if_neg (by simp)]
  simp only [zipWith_blend_self _ _ hw]

/-- C7 witness: the theorem applied to a concrete one sample cube with
weights 2 and 3. -/
theorem c7_witness :
    (0:ℚ) < 2 ∧ (0:ℚ) < 3 ∧ cubeOne.Samples ≠ [] ∧
    cubeOne.Blend cubeOne 2 3 = (cubeOne, none) :=
  ⟨by norm_num, by norm_num, by decide,
   c7_blend_self_noop cubeOne 2 3 (by norm_num) (by norm_num) (by decide)⟩

/-! ## C4: error behaviour of Sum and Blend -/

/-- C4 counterexample: an empty cube and a one sample cube have sample
sequences of different lengths, yet Sum and Blend fail with the empty LUT
error rather than with the sample count mismatch error, refuting the claim
that a length mismatch always yields ErrDifferentSampleSize. -/
theorem c4_counterexample :
    cubeE.Samples.length ≠ cubeOne.Samples.length ∧
    cubeE.Sum cubeOne = (cubeE, some CubeErr.emptyLut) ∧
    cubeE.Blend cubeOne 1 1 = (cubeE, some CubeErr.emptyLut) ∧
    CubeErr.emptyLut ≠ CubeErr.differentSampleSize := by
  refine ⟨by decide, by decide, by decide, by decide⟩

/-- C4 amended: Sum and Blend fail with the empty LUT error whenever either
sample sequence is empty (that check runs first and takes precedence), fail
with the sample count mismatch error whenever both sequences are nonempty and
their lengths differ, and in every such error case the returned cube is the
receiver unchanged; the argument cube is never written at all. -/
theorem c4_sum_blend_errors (c c2 : Cube) (i1 i2 : ℚ) :
    (c.Samples = [] ∨ c2.Samples = [] →
      c.Sum c2 = (c, some CubeErr.emptyLut) ∧
      c.Blend c2 i1 i2 = (c, some CubeErr.emptyLut)) ∧
    (c.Samples ≠ [] → c2.Samples ≠ [] → c.Samples.length ≠ c2.Samples.length →
      c.Sum c2 = (c, some CubeErr.differentSampleSize) ∧
      c.Blend c2 i1 i2 = (c, some CubeErr.differentSampleSize)) := by
  constructor
  · intro h
    have h0 : c.Samples.length = 0 ∨ c2.Samples.length = 0 := by
      rcases h with h | h
      · exact Or.inl (by simp [h])
      · exact Or.inr (by simp [h])
    constructor
    · unfold Cube.Sum; rw [if_pos h0]
    · unfold Cube.Blend; rw [if_pos h0]
  · intro h1 h2 h3
    have h0 : ¬(c.Samples.length = 0 ∨ c2.Samples.length = 0) := by
      push_neg
      exact ⟨by simp [List.length_eq_zero, h1], by simp [List.length_eq_zero, h2]⟩
    constructor
    · unfold Cube.Sum; rw [if_neg h0, if_pos h3]
    · unfold Cube.Blend; rw [if_neg h0, if_pos h3]

/-- C4 witness: the amended theorem applied to concrete cubes, exercising
both the empty LUT branch and the length mismatch branch. -/
theorem c4_witness :
    (cubeE.Sum cubeOne = (cubeE, some CubeErr.emptyLut) ∧
     cubeE.Blend cubeOne 1 1 = (cubeE, some CubeErr.emptyLut)) ∧
    (cubeOne.Sum cubeTwo = (cubeOne, some CubeErr.differentSampleSize) ∧
     cubeOne.Blend cubeTwo 1 1 = (cubeOne, some CubeErr.differentSampleSize)) :=
  ⟨(c4_sum_blend_errors cubeE cubeOne 1 1).1 (Or.inl rfl),
   (c4_sum_blend_errors cubeOne cubeTwo 1 1).2 (by decide) (by decide) (by decide)⟩

/-! ## C6: Rescale maps the global extremes onto the domain bounds -/

theorem chanMin_le (s : Sample) :
    Cube.chanMin s ≤ s.R ∧ Cube.chanMin s ≤ s.G ∧ Cube.chanMin s ≤ s.B :=
  ⟨le_trans (min_le_left _ _) (min_le_left _ _),
   le_trans (min_le_left _ _) (min_le_right _ _),
   min_le_right _ _⟩

theorem le_chanMax (s : Sample) :
    s.R ≤ Cube.chanMax s ∧ s.G ≤ Cube.chanMax s ∧ s.B ≤ Cube.chanMax s :=
  ⟨le_trans (le_max_left _ _) (le_max_left _ _),
   le_trans (le_max_right _ _) (le_max_left _ _),
   le_max_right _ _⟩

theorem chanMin_cases (s : Sample) :
    Cube.chanMin s = s.R ∨ Cube.chanMin s = s.G ∨ Cube.chanMin s = s.B := by
  unfold Cube.chanMin
  rcases le_total (min s.R s.G) s.B with h | h
  · rw [min_eq_left h]
    rcases le_total s.R s.G with h2 | h2
    · exact Or.inl (min_eq_left h2)
    · exact Or.inr (Or.inl (min_eq_right h2))
  · exact Or.inr (Or.inr (min_eq_right h))

theorem chanMax_cases (s : Sample) :
    Cube.chanMax s = s.R ∨ Cube.chanMax s = s.G ∨ Cube.chanMax s = s.B := by
  unfold Cube.chanMax
  rcases le_total s.B (max s.R s.G) with h | h
  · rw [max_eq_left h]
    rcases le_total s.G s.R with h2 | h2
    · exact Or.inl (max_eq_left h2)
    · exact Or.inr (Or.inl (max_eq_right h2))
  · exact Or.inr (Or.inr (max_eq_right h))

theorem foldl_min_le_init (l : List Sample) (a : ℚ) :
    l.foldl (fun x s => min x (Cube.chanMin s)) a ≤ a := by
  induction l generalizing a with
  | nil => simp
  | cons s t ih =>
    simp only [List.foldl_cons]
    exact le_trans (ih _) (min_le_left _ _)

theorem foldl_min_le_mem (l : List Sample) (a : ℚ) :
    ∀ s ∈ l, l.foldl (fun x u => min x (Cube.chanMin u)) a ≤ Cube.chanMin s := by
  induction l generalizing a with
  | nil => simp
  | cons u t ih =>
    intro s hs
    rcases List.mem_cons.mp hs with rfl | hs
    · exact le_trans (foldl_min_le_init t _) (min_le_right _ _)
    · exact ih _ s hs

theorem foldl_min_attained (l : List Sample) (a : ℚ) :
    l.foldl (fun x u => min x (Cube.chanMin u)) a = a ∨
    ∃ s ∈ l, l.foldl (fun x u => min x (Cube.chanMin u)) a = Cube.chanMin s := by
  induction l generalizing a with
  | nil => exact Or.inl rfl
  | cons u t ih =>
    simp only [List.foldl_cons]
    rcases ih (min a (Cube.chanMin u)) with h | ⟨s, hs, h⟩
    · rcases le_total a (Cube.chanMin u) with hle | hle
      · exact Or.inl (by rw [h, min_eq_left hle])
      · exact Or.inr ⟨u, by simp, by rw [h, min_eq_right hle]⟩
    · exact Or.inr ⟨s, by simp [hs], h⟩

theorem foldl_max_init_le (l : List Sample) (a : ℚ) :
    a ≤ l.foldl (fun x s => max x (Cube.chanMax s)) a := by
  induction l generalizing a with
  | nil => simp
  | cons s t ih =>
    simp only [List.foldl_cons]
    exact le_trans (le_max_left _ _) (ih _)

theorem foldl_max_mem_le (l : List Sample) (a : ℚ) :
    ∀ s ∈ l, Cube.chanMax s ≤ l.foldl (fun x u => max x (Cube.chanMax u)) a := by
  induction l generalizing a with
  | nil => simp
  | cons u t ih =>
    intro s hs
    rcases List.mem_cons.mp hs with rfl | hs
    · exact le_trans (le_max_right _ _) (foldl_max_init_le t _)
    · exact ih _ s hs

theorem foldl_max_attained (l : List Sample) (a : ℚ) :
    l.foldl (fun x u => max x (Cube.chanMax u)) a = a ∨
    ∃ s ∈ l, l.foldl (fun x u => max x (Cube.chanMax u)) a = Cube.chanMax s := by
  induction l generalizing a with
  | nil => exact Or.inl rfl
  | cons u t ih =>
    simp only [List.foldl_cons]
    rcases ih (max a (Cube.chanMax u)) with h | ⟨s, hs, h⟩
    · rcases le_total a (Cube.chanMax u) with hle | hle
      · exact Or.inr ⟨u, by simp, by rw [h, max_eq_right hle]⟩
      · exact Or.inl (by rw [h, max_eq_left hle])
    · exact Or.inr ⟨s, by simp [hs], h⟩

theorem getD_map_lt (f : Sample → Sample) (l : List Sample) (i : ℕ) (d d2 : Sample)
    (h : i < l.length) : (l.map f).getD i d = f (l.getD i d2) := by
  rw [List.getD_eq_getElem _ _ (by simpa using h), List.getD_eq_getElem _ _ h,
    List.getElem_map]

/-- C6: for every Cube with at least one sample, Rescale preserves the sample
count, the value minmax returns as global minimum (maximum) is attained by
some channel of some sample and bounds every channel from below (above); when
the global extremes differ, any channel equal to the global minimum is mapped
exactly to the matching DomainMin channel, any channel equal to the global
maximum exactly to the matching DomainMax channel, and every channel is
remapped by the linear formula between them; when the global extremes
coincide, every output sample is the per channel domain midpoint, with no
division by zero performed. -/
theorem c6_rescale_extremes (c : Cube) (hne : c.Samples ≠ []) :
    (c.Rescale).Samples.length = c.Samples.length ∧
    (∃ s ∈ c.Samples, s.R = c.minmax.1 ∨ s.G = c.minmax.1 ∨ s.B = c.minmax.1) ∧
    (∃ s ∈ c.Samples, s.R = c.minmax.2 ∨ s.G = c.minmax.2 ∨ s.B = c.minmax.2) ∧
    (∀ s ∈ c.Samples,
      c.minmax.1 ≤ s.R ∧ c.minmax.1 ≤ s.G ∧ c.minmax.1 ≤ s.B ∧
      s.R ≤ c.minmax.2 ∧ s.G ≤ c.minmax.2 ∧ s.B ≤ c.minmax.2) ∧
    (c.minmax.1 ≠ c.minmax.2 → ∀ i < c.Samples.length,
      ((c.Samples.getD i default).R = c.minmax.1 →
        ((c.Rescale).Samples.getD i default).R = c.DomainMin.R) ∧
      ((c.Samples.getD i default).G = c.minmax.1 →
        ((c.Rescale).Samples.getD i default).G = c.DomainMin.G) ∧
      ((c.Samples.getD i default).B = c.minmax.1 →
        ((c.Rescale).Samples.getD i default).B = c.DomainMin.B) ∧
      ((c.Samples.getD i default).R = c.minmax.2 →
        ((c.Rescale).Samples.getD i default).R = c.DomainMax.R) ∧
      ((c.Samples.getD i default).G = c.minmax.2 →
        ((c.Rescale).Samples.getD i default).G = c.DomainMax.G) ∧
      ((c.Samples.getD i default).B = c.minmax.2 →
        ((c.Rescale).Samples.getD i default).B = c.DomainMax.B) ∧
      ((c.Rescale).Samples.getD i default).R =
        c.DomainMin.R + ((c.Samples.getD i default).R - c.minmax.1) /
          (c.minmax.2 - c.minmax.1) * (c.DomainMax.R - c.DomainMin.R) ∧
      ((c.Rescale).Samples.getD i default).G =
        c.DomainMin.G + ((c.Samples.getD i default).G - c.minmax.1) /
          (c.minmax.2 - c.minmax.1) * (c.DomainMax.G - c.DomainMin.G) ∧
      ((c.Rescale).Samples.getD i default).B =
        c.DomainMin.B + ((c.Samples.getD i default).B - c.minmax.1) /
          (c.minmax.2 - c.minmax.1) * (c.DomainMax.B - c.DomainMin.B)) ∧
    (c.minmax.1 = c.minmax.2 → ∀ s ∈ (c.Rescale).Samples,
      s = ⟨c.DomainMin.R + (c.DomainMax.R - c.DomainMin.R) / 2,
           c.DomainMin.G + (c.DomainMax.G - c.DomainMin.G) / 2,
           c.DomainMin.B + (c.DomainMax.B - c.DomainMin.B) / 2⟩) := by
  obtain ⟨s0, rest, heq⟩ := List.exists_cons_of_ne_nil hne
  have hlen0 : ¬c.Samples.length = 0 := by simp [heq]
  have hm1 : c.minmax.1 =
      c.Samples.foldl (fun a s => min a (Cube.chanMin s)) (c.Samples.headD default).R := by
    rw [Cube.minmax, if_neg hlen0]
  have hm2 : c.minmax.2 =
      c.Samples.foldl (fun a s => max a (Cube.chanMax s)) (c.Samples.headD default).R := by
    rw [Cube.minmax, if_neg hlen0]
  have hRs : (c.Rescale).Samples =
      c.Samples.map (fun s => s.rescale c.minmax.1 c.minmax.2 c.DomainMin c.DomainMax) := rfl
  refine ⟨by rw [hRs, List.length_map], ?_, ?_, ?_, ?_, ?_⟩
  · -- the minimum is attained
    rcases foldl_min_attained c.Samples (c.Samples.headD default).R with h | ⟨s, hs, h⟩
    · refine ⟨s0, by simp [heq], Or.inl ?_⟩
      rw [hm1, h, heq]
      rfl
    · refine ⟨s, hs, ?_⟩
      rw [hm1, h]
      rcases chanMin_cases s with h2 | h2 | h2
      · exact Or.inl h2.symm
      · exact Or.inr (Or.inl h2.symm)
      · exact Or.inr (Or.inr h2.symm)
  · -- the maximum is attained
    rcases foldl_max_attained c.Samples (c.Samples.headD default).R with h | ⟨s, hs, h⟩
    · refine ⟨s0, by simp [heq], Or.inl ?_⟩
      rw [hm2, h, heq]
      rfl
    · refine ⟨s, hs, ?_⟩
      rw [hm2, h]
      rcases chanMax_cases s with h2 | h2 | h2
      · exact Or.inl h2.symm
      · exact Or.inr (Or.inl h2.symm)
      · exact Or.inr (Or.inr h2.symm)
  · -- global bounds
    intro s hs
    have h1 : c.minmax.1 ≤ Cube.chanMin s := by
      rw [hm1]; exact foldl_min_le_mem _ _ s hs
    have h2 : Cube.chanMax s ≤ c.minmax.2 := by
      rw [hm2]; exact foldl_max_mem_le _ _ s hs
    obtain ⟨a1, a2, a3⟩ := chanMin_le s
    obtain ⟨b1, b2, b3⟩ := le_chanMax s
    exact ⟨le_trans h1 a1, le_trans h1 a2, le_trans h1 a3,
           le_trans b1 h2, le_trans b2 h2, le_trans b3 h2⟩
  · -- linear remap with exact endpoints
    intro hneq i hi
    have hmx : ¬c.minmax.2 = c.minmax.1 := fun h => hneq h.symm
    have hout : (c.Rescale).Samples.getD i default =
        (c.Samples.getD i default).rescale c.minmax.1 c.minmax.2 c.DomainMin c.DomainMax := by
      rw [hRs]; exact getD_map_lt _ _ _ _ _ hi
    rw [hout]
    rw [Sample.rescale, if_neg hmx]
    have hrange : c.minmax.2 - c.minmax.1 ≠ 0 := sub_ne_zero.mpr hmx
    refine ⟨?_, ?_, ?_, ?_, ?_, ?_, rfl, rfl, rfl⟩
    all_goals intro hch
    all_goals rw [hch]
    · simp
    · simp
    · simp
    · simp only [div_self hrange]; ring
    · simp only [div_self hrange]; ring
    · simp only [div_self hrange]; ring
  · -- flat cube collapses to the midpoint
    intro hflat s hs
    rw [hRs] at hs
    obtain ⟨u, _, rfl⟩ := List.mem_map.mp hs
    rw [Sample.rescale, if_pos hflat.symm]

/-- A concrete cube for the C6 witness. -/
def cubeW6 : Cube := ⟨[], [], 2, ⟨0, 0, 0⟩, ⟨1, 1, 1⟩, [⟨0, 1, 0⟩, ⟨1/2, 1/4, 3/4⟩]⟩

/-- C6 witness: the theorem applied to a concrete two sample cube. -/
theorem c6_witness :
    cubeW6.Samples ≠ [] ∧ (cubeW6.Rescale).Samples.length = cubeW6.Samples.length :=
  ⟨by decide, (c6_rescale_extremes cubeW6 (by decide)).1⟩

/-! ## C10: totality of getSample -/

/-- A cube with a negative LUT3Dsize, as produced by loading a grid file that
declares LUT_3D_SIZE -2. -/
def cubeNeg : Cube := ⟨[], [], -2, ⟨0, 0, 0⟩, ⟨1, 1, 1⟩, [⟨0, 0, 0⟩]⟩

/-- C10 counterexample: getSample is not total over all cubes: on a cube with
LUT3Dsize = -2 and one sample, the nonnegative lattice coordinates (0,1,0)
give the negative flat index -2, which is strictly below len(Samples), so the
Go slice read Samples[idx] panics at runtime (modelled by none) instead of
returning a sample. -/
theorem c10_counterexample :
    cubeNeg.getSample 0 1 0 = none ∧
    cubeNeg.flatIdx 0 1 0 < (cubeNeg.Samples.length : ℤ) := by
  refine ⟨by decide, by decide⟩

/-- C10 amended: for every Cube whose LUT3Dsize is nonnegative and all
nonnegative lattice coordinates r, g, b, getSample is total and never fails:
it returns the zero sample when the flat index r + g*N + b*N*N is at least
len(Samples) and the sample at that flat index otherwise, silently absorbing
out of range reads; with a negative LUT3Dsize the flat index can become
negative and the slice read panics instead. -/
theorem c10_getSample_total (c : Cube) (r g b : ℤ) (hN : 0 ≤ c.LUT3Dsize)
    (hr : 0 ≤ r) (hg : 0 ≤ g) (hb : 0 ≤ b) :
    (c.getSample r g b).isSome ∧
    ((c.Samples.length : ℤ) ≤ c.flatIdx r g b → c.getSample r g b = some ⟨0, 0, 0⟩) ∧
    (c.flatIdx r g b < (c.Samples.length : ℤ) →
      c.getSample r g b = some (c.Samples.getD (c.flatIdx r g b).toNat default)) := by
  have h1 : 0 ≤ g * c.LUT3Dsize := mul_nonneg hg hN
  have h2 : 0 ≤ b * c.LUT3Dsize * c.LUT3Dsize := mul_nonneg (mul_nonneg hb hN) hN
  have hidx : 0 ≤ c.flatIdx r g b := by
    unfold Cube.flatIdx
    linarith
  refine ⟨?_, ?_, ?_⟩
  · by_cases hc : (c.Samples.length : ℤ) ≤ c.flatIdx r g b
    · simp [Cube.getSample, hc]
    · simp [Cube.getSample, hc, not_lt.mpr hidx]
  · intro hc
    simp [Cube.getSample, hc]
  · intro hc
    simp [Cube.getSample, not_le.mpr hc, not_lt.mpr hidx]

/-- C10 witness: the amended theorem applied at a concrete in range read. -/
theorem c10_witness :
    (cubeTwo.getSample 1 0 0).isSome ∧
    cubeTwo.getSample 1 0 0 =
      some (cubeTwo.Samples.getD (cubeTwo.flatIdx 1 0 0).toNat default) :=
  ⟨(c10_getSample_total cubeTwo 1 0 0 (by decide) (by decide) (by decide) (by decide)).1,
   (c10_getSample_total cubeTwo 1 0 0 (by decide) (by decide) (by decide)
     (by decide)).2.2 (by decide)⟩

/-! ## C2: interpolation at lattice points is exact -/

theorem lerp_zero (s1 s2 : Sample) : lerp s1 s2 0 = s1 := by
  cases s1
  cases s2
  simp [lerp]

theorem getSample_in_range (c : Cube) (N : ℤ) (hsize : c.LUT3Dsize = N)
    (hlen : (c.Samples.length : ℤ) = N ^ 3) (x y z : ℤ)
    (hx : 0 ≤ x ∧ x ≤ N - 1) (hy : 0 ≤ y ∧ y ≤ N - 1) (hz : 0 ≤ z ∧ z ≤ N - 1) :
    c.getSample x y z = some (c.Samples.getD (c.flatIdx x y z).toNat default) := by
  have hN1 : 1 ≤ N := by linarith [hx.1, hx.2]
  have hidx0 : 0 ≤ c.flatIdx x y z := by
    unfold Cube.flatIdx
    rw [hsize]
    have e1 : 0 ≤ y * N := mul_nonneg hy.1 (by linarith)
    have e2 : 0 ≤ z * N * N := mul_nonneg (mul_nonneg hz.1 (by linarith)) (by linarith)
    linarith [hx.1]
  have hidxlt : c.flatIdx x y z < N ^ 3 := by
    unfold Cube.flatIdx
    rw [hsize]
    have e1 : y * N ≤ (N - 1) * N :=
      mul_le_mul_of_nonneg_right hy.2 (by linarith)
    have e2 : z * N * N ≤ (N - 1) * N * N :=
      mul_le_mul_of_nonneg_right (mul_le_mul_of_nonneg_right hz.2 (by linarith)) (by linarith)
    nlinarith [hx.2]
  have hlt : c.flatIdx x y z < (c.Samples.length : ℤ) := by rw [hlen]; exact hidxlt
  simp [Cube.getSample, not_le.mpr hlt, not_lt.mpr hidx0]

theorem interpCore_int (c : Cube) (N : ℤ) (hsize : c.LUT3Dsize = N)
    (hlen : (c.Samples.length : ℤ) = N ^ 3) (r g b : ℤ)
    (hr : 0 ≤ r ∧ r ≤ N - 1) (hg : 0 ≤ g ∧ g ≤ N - 1) (hb : 0 ≤ b ∧ b ≤ N - 1) :
    c.interpCore (r : ℚ) (g : ℚ) (b : ℚ) = c.getSample r g b := by
  have hN1 : 1 ≤ N := by linarith [hr.1, hr.2]
  have hr1 : 0 ≤ min (r + 1) (N - 1) ∧ min (r + 1) (N - 1) ≤ N - 1 :=
    ⟨le_min (by linarith [hr.1]) (by linarith), min_le_right _ _⟩
  have hg1 : 0 ≤ min (g + 1) (N - 1) ∧ min (g + 1) (N - 1) ≤ N - 1 :=
    ⟨le_min (by linarith [hg.1]) (by linarith), min_le_right _ _⟩
  have hb1 : 0 ≤ min (b + 1) (N - 1) ∧ min (b + 1) (N - 1) ≤ N - 1 :=
    ⟨le_min (by linarith [hb.1]) (by linarith), min_le_right _ _⟩
  have h000 := getSample_in_range c N hsize hlen r g b hr hg hb
  have h001 := getSample_in_range c N hsize hlen r g (min (b + 1) (N - 1)) hr hg hb1
  have h010 := getSample_in_range c N hsize hlen r (min (g + 1) (N - 1)) b hr hg1 hb
  have h011 := getSample_in_range c N hsize hlen r (min (g + 1) (N - 1))
    (min (b + 1) (N - 1)) hr hg1 hb1
  have h100 := getSample_in_range c N hsize hlen (min (r + 1) (N - 1)) g b hr1 hg hb
  have h101 := getSample_in_range c N hsize hlen (min (r + 1) (N - 1)) g
    (min (b + 1) (N - 1)) hr1 hg hb1
  have h110 := getSample_in_range c N hsize hlen (min (r + 1) (N - 1))
    (min (g + 1) (N - 1)) b hr1 hg1 hb
  have h111 := getSample_in_range c N hsize hlen (min (r + 1) (N - 1))
    (min (g + 1) (N - 1)) (min (b + 1) (N - 1)) hr1 hg1 hb1
  rw [Cube.interpCore]
  simp only [hsize, Int.floor_intCast, sub_self]
  rw [h000, h001, h010, h011, h100, h101, h110, h111]
  simp only [Option.bind_some, lerp_zero, bind, Option.bind]
  rfl

/-- C2: for every Cube with LUT3Dsize = N at least 2, domain [0,1] per
channel, and N cubed samples, and all lattice coordinates r, g, b between 0
and N-1, interpolating at (r/(N-1), g/(N-1), b/(N-1)) returns exactly the
sample getSample(r,g,b), which is the sample at flat index r + g*N + b*N*N;
in the exact rational model of the float arithmetic there is no error at
all. -/
theorem c2_interpolate_lattice (c : Cube) (N : ℤ) (hN : 2 ≤ N)
    (hsize : c.LUT3Dsize = N) (hdm : c.DomainMin = ⟨0, 0, 0⟩)
    (hdM : c.DomainMax = ⟨1, 1, 1⟩) (hlen : (c.Samples.length : ℤ) = N ^ 3)
    (r g b : ℤ) (hr : 0 ≤ r ∧ r < N) (hg : 0 ≤ g ∧ g < N) (hb : 0 ≤ b ∧ b < N) :
    c.interpolate ((r : ℚ) / ((N : ℚ) - 1)) ((g : ℚ) / ((N : ℚ) - 1))
        ((b : ℚ) / ((N : ℚ) - 1)) = c.getSample r g b ∧
    c.getSample r g b =
      some (c.Samples.getD (r + g * N + b * N * N).toNat default) := by
  have hNQ : ((N : ℚ) - 1) ≠ 0 := by
    have : (2 : ℚ) ≤ (N : ℚ) := by exact_mod_cast hN
    linarith
  have hd1 : c.DomainMin.R = 0 := by rw [hdm]
  have hd2 : c.DomainMin.G = 0 := by rw [hdm]
  have hd3 : c.DomainMin.B = 0 := by rw [hdm]
  have hD1 : c.DomainMax.R = 1 := by rw [hdM]
  have hD2 : c.DomainMax.G = 1 := by rw [hdM]
  have hD3 : c.DomainMax.B = 1 := by rw [hdM]
  have hcoord : ∀ x : ℤ, 0 ≤ x → x ≤ N - 1 →
      latticeCoord 0 1 ((N : ℚ) - 1) ((x : ℚ) / ((N : ℚ) - 1)) = (x : ℚ) := by
    intro x h0 h1
    have hx0 : (0 : ℚ) ≤ (x : ℚ) := by exact_mod_cast h0
    have hx1 : (x : ℚ) ≤ (N : ℚ) - 1 := by
      have h2 : ((x : ℤ) : ℚ) ≤ ((N - 1 : ℤ) : ℚ) := by exact_mod_cast h1
      push_cast at h2
      linarith
    unfold latticeCoord normIdx clampIdx
    rw [sub_zero, sub_zero, div_one, div_mul_cancel₀ _ hNQ]
    rw [min_eq_right hx1, max_eq_right hx0]
  have hbounds : ∀ x : ℤ, 0 ≤ x ∧ x < N → 0 ≤ x ∧ x ≤ N - 1 :=
    fun x h => ⟨h.1, by linarith [h.2]⟩
  have hI : c.interpolate ((r : ℚ) / ((N : ℚ) - 1)) ((g : ℚ) / ((N : ℚ) - 1))
      ((b : ℚ) / ((N : ℚ) - 1)) = c.interpCore (r : ℚ) (g : ℚ) (b : ℚ) := by
    rw [Cube.interpolate]
    simp only [hsize, hd1, hd2, hd3, hD1, hD2, hD3]
    rw [hcoord r hr.1 (by linarith [hr.2]), hcoord g hg.1 (by linarith [hg.2]),
        hcoord b hb.1 (by linarith [hb.2])]
  have hcore := interpCore_int c N hsize hlen r g b (hbounds r hr) (hbounds g hg) (hbounds b hb)
  have hget := getSample_in_range c N hsize hlen r g b (hbounds r hr) (hbounds g hg) (hbounds b hb)
  refine ⟨by rw [hI, hcore], ?_⟩
  rw [hget]
  unfold Cube.flatIdx
  rw [hsize]

/-- A concrete identity style cube of level 2 for witnesses. -/
def cubeW2 : Cube :=
  ⟨[], [], 2, ⟨0, 0, 0⟩, ⟨1, 1, 1⟩,
   [⟨0, 0, 0⟩, ⟨1, 0, 0⟩, ⟨0, 1, 0⟩, ⟨1, 1, 0⟩,
    ⟨0, 0, 1⟩, ⟨1, 0, 1⟩, ⟨0, 1, 1⟩, ⟨1, 1, 1⟩]⟩

/-- C2 witness: the theorem applied to a concrete level 2 cube at the
lattice point (1,0,1). -/
theorem c2_witness :
    cubeW2.interpolate (((1 : ℤ) : ℚ) / (((2 : ℤ) : ℚ) - 1))
        (((0 : ℤ) : ℚ) / (((2 : ℤ) : ℚ) - 1))
        (((1 : ℤ) : ℚ) / (((2 : ℤ) : ℚ) - 1)) = cubeW2.getSample 1 0 1 ∧
    cubeW2.getSample 1 0 1 =
      some (cubeW2.Samples.getD ((1 : ℤ) + 0 * 2 + 1 * 2 * 2).toNat default) :=
  c2_interpolate_lattice cubeW2 2 (by decide) rfl rfl rfl (by decide) 1 0 1
    (by decide) (by decide) (by decide)

/-! ## C8: clamping and edge policy of the interpolator -/

theorem clampIdx_nonneg (sz x : ℚ) : 0 ≤ clampIdx sz x := le_max_left _ _

theorem clampIdx_le (sz x : ℚ) (h : 0 ≤ sz) : clampIdx sz x ≤ sz :=
  max_le h (min_le_left _ _)

theorem latticeCoord_clamp (lo hi sz v : ℚ) (hlohi : lo < hi) (hsz : 0 ≤ sz) :
    latticeCoord lo hi sz v = latticeCoord lo hi sz (max lo (min hi v)) := by
  have hd : 0 < hi - lo := by linarith
  rcases le_total v lo with h | h
  · have hclamp : max lo (min hi v) = lo := by
      rw [min_eq_right (by linarith : v ≤ hi)]
      exact max_eq_left h
    rw [hclamp]
    unfold latticeCoord normIdx clampIdx
    have hv : (v - lo) / (hi - lo) * sz ≤ 0 :=
      mul_nonpos_iff.mpr (Or.inr ⟨div_nonpos_of_nonpos_of_nonneg (by linarith) hd.le, hsz⟩)
    have h0 : (lo - lo) / (hi - lo) * sz = 0 := by simp
    rw [h0, max_eq_left (le_trans (min_le_right _ _) hv),
      min_eq_right hsz, max_self]
  · rcases le_total v hi with h2 | h2
    · have hclamp : max lo (min hi v) = v := by
        rw [min_eq_right h2]
        exact max_eq_right h
      rw [hclamp]
    · have hclamp : max lo (min hi v) = hi := by
        rw [min_eq_left h2]
        exact max_eq_right hlohi.le
      rw [hclamp]
      unfold latticeCoord normIdx clampIdx
      have hvs : sz ≤ (v - lo) / (hi - lo) * sz := by
        have h1 : (1 : ℚ) ≤ (v - lo) / (hi - lo) := by
          rw [le_div_iff₀ hd]
          linarith
        nlinarith
      have hhs : (hi - lo) / (hi - lo) * sz = sz := by
        rw [div_self hd.ne', one_mul]
      rw [hhs, min_eq_left hvs, min_self]

theorem getSample_isSome (c : Cube) (x y z : ℤ) (hN : 0 ≤ c.LUT3Dsize)
    (hx : 0 ≤ x) (hy : 0 ≤ y) (hz : 0 ≤ z) :
    ∃ s, c.getSample x y z = some s := by
  have h1 : 0 ≤ y * c.LUT3Dsize := mul_nonneg hy hN
  have h2 : 0 ≤ z * c.LUT3Dsize * c.LUT3Dsize := mul_nonneg (mul_nonneg hz hN) hN
  have hidx : 0 ≤ c.flatIdx x y z := by
    unfold Cube.flatIdx
    linarith
  by_cases hc : (c.Samples.length : ℤ) ≤ c.flatIdx x y z
  · exact ⟨⟨0, 0, 0⟩, by simp [Cube.getSample, hc]⟩
  · refine ⟨c.Samples.getD (c.flatIdx x y z).toNat default, ?_⟩
    simp [Cube.getSample, hc, not_lt.mpr hidx]

theorem interpCore_isSome (c : Cube) (hN : 1 ≤ c.LUT3Dsize) (ri gi bi : ℚ)
    (hri : 0 ≤ ri) (hgi : 0 ≤ gi) (hbi : 0 ≤ bi) :
    (c.interpCore ri gi bi).isSome := by
  have hN0 : 0 ≤ c.LUT3Dsize := by linarith
  have hr0 : 0 ≤ ⌊ri⌋ := Int.le_floor.mpr (by exact_mod_cast hri)
  have hg0 : 0 ≤ ⌊gi⌋ := Int.le_floor.mpr (by exact_mod_cast hgi)
  have hb0 : 0 ≤ ⌊bi⌋ := Int.le_floor.mpr (by exact_mod_cast hbi)
  have hr1 : 0 ≤ min (⌊ri⌋ + 1) (c.LUT3Dsize - 1) := le_min (by linarith) (by linarith)
  have hg1 : 0 ≤ min (⌊gi⌋ + 1) (c.LUT3Dsize - 1) := le_min (by linarith) (by linarith)
  have hb1 : 0 ≤ min (⌊bi⌋ + 1) (c.LUT3Dsize - 1) := le_min (by linarith) (by linarith)
  obtain ⟨v000, h000⟩ := getSample_isSome c _ _ _ hN0 hr0 hg0 hb0
  obtain ⟨v001, h001⟩ := getSample_isSome c ⌊ri⌋ ⌊gi⌋ (min (⌊bi⌋ + 1) (c.LUT3Dsize - 1)) hN0 hr0 hg0 hb1
  obtain ⟨v010, h010⟩ := getSample_isSome c ⌊ri⌋ (min (⌊gi⌋ + 1) (c.LUT3Dsize - 1)) ⌊bi⌋ hN0 hr0 hg1 hb0
  obtain ⟨v011, h011⟩ := getSample_isSome c ⌊ri⌋ (min (⌊gi⌋ + 1) (c.LUT3Dsize - 1))
    (min (⌊bi⌋ + 1) (c.LUT3Dsize - 1)) hN0 hr0 hg1 hb1
  obtain ⟨v100, h100⟩ := getSample_isSome c (min (⌊ri⌋ + 1) (c.LUT3Dsize - 1)) ⌊gi⌋ ⌊bi⌋ hN0 hr1 hg0 hb0
  obtain ⟨v101, h101⟩ := getSample_isSome c (min (⌊ri⌋ + 1) (c.LUT3Dsize - 1)) ⌊gi⌋
    (min (⌊bi⌋ + 1) (c.LUT3Dsize - 1)) hN0 hr1 hg0 hb1
  obtain ⟨v110, h110⟩ := getSample_isSome c (min (⌊ri⌋ + 1) (c.LUT3Dsize - 1))
    (min (⌊gi⌋ + 1) (c.LUT3Dsize - 1)) ⌊bi⌋ hN0 hr1 hg1 hb0
  obtain ⟨v111, h111⟩ := getSample_isSome c (min (⌊ri⌋ + 1) (c.LUT3Dsize - 1))
    (min (⌊gi⌋ + 1) (c.LUT3Dsize - 1)) (min (⌊bi⌋ + 1) (c.LUT3Dsize - 1)) hN0 hr1 hg1 hb1
  rw [Cube.interpCore]
  simp only [h000, h001, h010, h011, h100, h101, h110, h111, Option.bind_some, bind, Option.bind]
  rfl

theorem interpCore_diag_int (c : Cube) (x : ℤ) (hx : 0 ≤ x)
    (hxle : x ≤ c.LUT3Dsize - 1) :
    c.interpCore (x : ℚ) (x : ℚ) (x : ℚ) = c.getSample x x x := by
  have hN0 : 0 ≤ c.LUT3Dsize := by linarith
  have hx1 : 0 ≤ min (x + 1) (c.LUT3Dsize - 1) := le_min (by linarith) (by linarith)
  obtain ⟨v000, h000⟩ := getSample_isSome c x x x hN0 hx hx hx
  obtain ⟨v001, h001⟩ := getSample_isSome c x x (min (x + 1) (c.LUT3Dsize - 1)) hN0 hx hx hx1
  obtain ⟨v010, h010⟩ := getSample_isSome c x (min (x + 1) (c.LUT3Dsize - 1)) x hN0 hx hx1 hx
  obtain ⟨v011, h011⟩ := getSample_isSome c x (min (x + 1) (c.LUT3Dsize - 1))
    (min (x + 1) (c.LUT3Dsize - 1)) hN0 hx hx1 hx1
  obtain ⟨v100, h100⟩ := getSample_isSome c (min (x + 1) (c.LUT3Dsize - 1)) x x hN0 hx1 hx hx
  obtain ⟨v101, h101⟩ := getSample_isSome c (min (x + 1) (c.LUT3Dsize - 1)) x
    (min (x + 1) (c.LUT3Dsize - 1)) hN0 hx1 hx hx1
  obtain ⟨v110, h110⟩ := getSample_isSome c (min (x + 1) (c.LUT3Dsize - 1))
    (min (x + 1) (c.LUT3Dsize - 1)) x hN0 hx1 hx1 hx
  obtain ⟨v111, h111⟩ := getSample_isSome c (min (x + 1) (c.LUT3Dsize - 1))
    (min (x + 1) (c.LUT3Dsize - 1)) (min (x + 1) (c.LUT3Dsize - 1)) hN0 hx1 hx1 hx1
  rw [Cube.interpCore]
  simp only [Int.floor_intCast, sub_self]
  rw [h000, h001, h010, h011, h100, h101, h110, h111]
  simp only [Option.bind_some, lerp_zero, bind, Option.bind]
  rfl

/-- C8: for every Cube with level at least 2 and a proper domain (min below
max per channel): (1) interpolate clamps the normalized lattice coordinate
into [0, N-1] before use, so any input produces the same result as the
nearest domain boundary coordinate, never extrapolating; (2) an input exactly
at the domain top edge gives r0 = r1 = N-1 and the interpolation degenerates
to the direct lookup getSample(N-1, N-1, N-1); (3) every floor coordinate and
every +1 neighbor passed to getSample lies in [0, N-1]; (4) consequently
interpolation always returns a sample, no lookup can panic. -/
theorem c8_interpolate_clamped (c : Cube) (hN : 2 ≤ c.LUT3Dsize)
    (hR : c.DomainMin.R < c.DomainMax.R) (hG : c.DomainMin.G < c.DomainMax.G)
    (hB : c.DomainMin.B < c.DomainMax.B) :
    (∀ r g b : ℚ,
      c.interpolate r g b =
        c.interpolate (max c.DomainMin.R (min c.DomainMax.R r))
          (max c.DomainMin.G (min c.DomainMax.G g))
          (max c.DomainMin.B (min c.DomainMax.B b))) ∧
    (c.interpolate c.DomainMax.R c.DomainMax.G c.DomainMax.B =
      c.getSample (c.LUT3Dsize - 1) (c.LUT3Dsize - 1) (c.LUT3Dsize - 1)) ∧
    (∀ lo hi v : ℚ,
      0 ≤ ⌊latticeCoord lo hi ((c.LUT3Dsize : ℚ) - 1) v⌋ ∧
      ⌊latticeCoord lo hi ((c.LUT3Dsize : ℚ) - 1) v⌋ ≤ c.LUT3Dsize - 1 ∧
      0 ≤ min (⌊latticeCoord lo hi ((c.LUT3Dsize : ℚ) - 1) v⌋ + 1) (c.LUT3Dsize - 1) ∧
      min (⌊latticeCoord lo hi ((c.LUT3Dsize : ℚ) - 1) v⌋ + 1) (c.LUT3Dsize - 1) ≤
        c.LUT3Dsize - 1) ∧
    (∀ r g b : ℚ, (c.interpolate r g b).isSome) := by
  have hszZ : (0 : ℤ) ≤ c.LUT3Dsize - 1 := by linarith
  have hszQ : (0 : ℚ) ≤ (c.LUT3Dsize : ℚ) - 1 := by
    have h2 : (2 : ℚ) ≤ (c.LUT3Dsize : ℚ) := by exact_mod_cast hN
    linarith
  have hcast : ((c.LUT3Dsize : ℚ) - 1) = ((c.LUT3Dsize - 1 : ℤ) : ℚ) := by
    push_cast
    ring
  refine ⟨?_, ?_, ?_, ?_⟩
  · intro r g b
    show c.interpCore
        (latticeCoord c.DomainMin.R c.DomainMax.R ((c.LUT3Dsize : ℚ) - 1) r)
        (latticeCoord c.DomainMin.G c.DomainMax.G ((c.LUT3Dsize : ℚ) - 1) g)
        (latticeCoord c.DomainMin.B c.DomainMax.B ((c.LUT3Dsize : ℚ) - 1) b) =
      c.interpolate (max c.DomainMin.R (min c.DomainMax.R r))
        (max c.DomainMin.G (min c.DomainMax.G g))
        (max c.DomainMin.B (min c.DomainMax.B b))
    rw [latticeCoord_clamp _ _ _ r hR hszQ, latticeCoord_clamp _ _ _ g hG hszQ,
      latticeCoord_clamp _ _ _ b hB hszQ]
    rfl
  · have htop : ∀ lo hi : ℚ, lo < hi →
        latticeCoord lo hi ((c.LUT3Dsize : ℚ) - 1) hi = ((c.LUT3Dsize - 1 : ℤ) : ℚ) := by
      intro lo hi h
      unfold latticeCoord normIdx clampIdx
      rw [div_self (sub_ne_zero.mpr h.ne'), one_mul, min_self,
        max_eq_right hszQ, hcast]
    show c.interpCore
        (latticeCoord c.DomainMin.R c.DomainMax.R ((c.LUT3Dsize : ℚ) - 1) c.DomainMax.R)
        (latticeCoord c.DomainMin.G c.DomainMax.G ((c.LUT3Dsize : ℚ) - 1) c.DomainMax.G)
        (latticeCoord c.DomainMin.B c.DomainMax.B ((c.LUT3Dsize : ℚ) - 1) c.DomainMax.B) =
      c.getSample (c.LUT3Dsize - 1) (c.LUT3Dsize - 1) (c.LUT3Dsize - 1)
    rw [htop _ _ hR, htop _ _ hG, htop _ _ hB]
    exact interpCore_diag_int c (c.LUT3Dsize - 1) hszZ le_rfl
  · intro lo hi v
    have hle : latticeCoord lo hi ((c.LUT3Dsize : ℚ) - 1) v ≤ (c.LUT3Dsize : ℚ) - 1 :=
      clampIdx_le _ _ hszQ
    have h1 : 0 ≤ ⌊latticeCoord lo hi ((c.LUT3Dsize : ℚ) - 1) v⌋ :=
      Int.le_floor.mpr (by exact_mod_cast clampIdx_nonneg _ _)
    have h2 : ⌊latticeCoord lo hi ((c.LUT3Dsize : ℚ) - 1) v⌋ ≤ c.LUT3Dsize - 1 := by
      have hh := Int.floor_le_floor hle
      rwa [Int.floor_sub_one, Int.floor_intCast] at hh
    exact ⟨h1, h2, le_min (by linarith) hszZ, min_le_right _ _⟩
  · intro r g b
    show (c.interpCore
        (latticeCoord c.DomainMin.R c.DomainMax.R ((c.LUT3Dsize : ℚ) - 1) r)
        (latticeCoord c.DomainMin.G c.DomainMax.G ((c.LUT3Dsize : ℚ) - 1) g)
        (latticeCoord c.DomainMin.B c.DomainMax.B ((c.LUT3Dsize : ℚ) - 1) b)).isSome
    exact interpCore_isSome c (by linarith) _ _ _
      (clampIdx_nonneg _ _) (clampIdx_nonneg _ _) (clampIdx_nonneg _ _)

/-- C8 witness: the theorem applied to a concrete level 2 cube; the top edge
input (1,1,1) degenerates to the direct lookup at (N-1, N-1, N-1). -/
theorem c8_witness :
    cubeW2.interpolate cubeW2.DomainMax.R cubeW2.DomainMax.G cubeW2.DomainMax.B =
      cubeW2.getSample (cubeW2.LUT3Dsize - 1) (cubeW2.LUT3Dsize - 1)
        (cubeW2.LUT3Dsize - 1) :=
  (c8_interpolate_clamped cubeW2 (by decide) (by decide) (by decide) (by decide)).2.1

/-! ## C9: HALD image dimension validation (hald package, both versions) -/

/-- The sentinel errors of the hald package relevant to construction. -/
inductive HaldErr where
  | invalidDimensions
  | nilImage
deriving DecidableEq

/-- Largest k at most n with k^3 at most w; helper for the cube root. -/
def cbrtFloorA (w : ℕ) : ℕ → ℕ
  | 0 => 0
  | n + 1 => if (n + 1) ^ 3 ≤ w then n + 1 else cbrtFloorA w n

/-- Models math.Round(math.Cbrt(float64(w))) for natural w: the integer
nearest to the real cube root of w; the Go float computation is correctly
rounded at the magnitudes of image dimensions. -/
def cbrtRnd (w : ℕ) : ℕ :=
  let f := cbrtFloorA w w
  if (2 * f + 1) ^ 3 ≤ 8 * w then f + 1 else f

/-- Models math.Round(math.Sqrt(float64(h))) for natural h; math.Sqrt is
exactly rounded per IEEE, so this is the rounding of the true square root. -/
def sqrtRnd (h : ℕ) : ℕ :=
  let f := Nat.sqrt h
  if (2 * f + 1) ^ 2 ≤ 4 * h then f + 1 else f

/-- newHALD of the cubic layout version of the hald package: a non nil
decoded image (modelled by its width and height; none models nil) must be a
square whose side is the perfect cube level^3; the level is recorded. -/
def newHALD1 (img : Option (ℕ × ℕ)) : Except HaldErr ℕ :=
  match img with
  | none => .error .nilImage
  | some (w, h) =>
    if w ≠ h then .error .invalidDimensions
    else
      let level := cbrtRnd w
      if level * level * level ≠ w then .error .invalidDimensions
      else .ok level

/-- newHALD of the tiled layout version of the hald package: width must be
level^3 and height level^2 for the recorded level. -/
def newHALD2 (img : Option (ℕ × ℕ)) : Except HaldErr ℕ :=
  match img with
  | none => .error .nilImage
  | some (w, h) =>
    let level := sqrtRnd h
    if level * level ≠ h ∨ level * level * level ≠ w then .error .invalidDimensions
    else .ok level

theorem cbrtFloorA_cube_le (w : ℕ) : ∀ n, (cbrtFloorA w n) ^ 3 ≤ w
  | 0 => by simp [cbrtFloorA]
  | n + 1 => by
    rw [cbrtFloorA]
    split
    · assumption
    · exact cbrtFloorA_cube_le w n

theorem le_cbrtFloorA (w : ℕ) : ∀ n k, k ≤ n → k ^ 3 ≤ w → k ≤ cbrtFloorA w n
  | 0, k, hk, _ => by simpa [cbrtFloorA] using hk
  | n + 1, k, hk, hkw => by
    rw [cbrtFloorA]
    split
    · exact hk
    · rename_i hcond
      rcases Nat.lt_or_ge k (n + 1) with h | h
      · exact le_cbrtFloorA w n k (by omega) hkw
      · have hkn : k = n + 1 := by omega
        subst hkn
        exact absurd hkw hcond

theorem cbrtRnd_cube (N : ℕ) : cbrtRnd (N ^ 3) = N := by
  have hle : N ≤ N ^ 3 := Nat.le_self_pow (by norm_num) N
  have hf : cbrtFloorA (N ^ 3) (N ^ 3) = N := by
    have h1 : N ≤ cbrtFloorA (N ^ 3) (N ^ 3) := le_cbrtFloorA _ _ N hle le_rfl
    have h2 : (cbrtFloorA (N ^ 3) (N ^ 3)) ^ 3 ≤ N ^ 3 := cbrtFloorA_cube_le _ _
    have h3 : cbrtFloorA (N ^ 3) (N ^ 3) ≤ N := by
      by_contra hc
      push_neg at hc
      have h4 := Nat.pow_lt_pow_left hc (n := 3) (by norm_num)
      omega
    omega
  have hno : ¬(2 * N + 1) ^ 3 ≤ 8 * N ^ 3 := by
    intro hcontra
    have h1 : 8 * N ^ 3 + 12 * N ^ 2 + 6 * N + 1 ≤ 8 * N ^ 3 := by
      calc 8 * N ^ 3 + 12 * N ^ 2 + 6 * N + 1 = (2 * N + 1) ^ 3 := by ring
        _ ≤ 8 * N ^ 3 := hcontra
    linarith [Nat.zero_le (N ^ 2), Nat.zero_le N]
  simp only [cbrtRnd, hf]
  rw [if_neg hno]

theorem sqrtRnd_sq (N : ℕ) : sqrtRnd (N ^ 2) = N := by
  have hf : Nat.sqrt (N ^ 2) = N := Nat.sqrt_eq' N
  have hno : ¬(2 * N + 1) ^ 2 ≤ 4 * N ^ 2 := by
    intro hcontra
    have h1 : 4 * N ^ 2 + 4 * N + 1 ≤ 4 * N ^ 2 := by
      calc 4 * N ^ 2 + 4 * N + 1 = (2 * N + 1) ^ 2 := by ring
        _ ≤ 4 * N ^ 2 := hcontra
    linarith [Nat.zero_le N]
  simp only [sqrtRnd, hf]
  rw [if_neg hno]

/-- C9: constructing a HALD from a decoded image fails with the nil image
error when the image is nil; in the cubic layout version it succeeds exactly
when there is an integer level N with width = height = N^3, recording that
level, and otherwise fails with the invalid dimensions error; in the tiled
layout version it succeeds exactly when there is an integer level N with
width = N^3 and height = N^2, recording that level, and otherwise fails with
the invalid dimensions error. -/
theorem c9_newHALD_validates :
    (newHALD1 none = .error .nilImage) ∧
    (newHALD2 none = .error .nilImage) ∧
    (∀ N : ℕ, newHALD1 (some (N ^ 3, N ^ 3)) = .ok N) ∧
    (∀ w h : ℕ, (¬∃ N : ℕ, w = N ^ 3 ∧ h = N ^ 3) →
      newHALD1 (some (w, h)) = .error .invalidDimensions) ∧
    (∀ N : ℕ, newHALD2 (some (N ^ 3, N ^ 2)) = .ok N) ∧
    (∀ w h : ℕ, (¬∃ N : ℕ, w = N ^ 3 ∧ h = N ^ 2) →
      newHALD2 (some (w, h)) = .error .invalidDimensions) := by
  refine ⟨rfl, rfl, ?_, ?_, ?_, ?_⟩
  · intro N
    have hcond : ¬(N * N * N ≠ N ^ 3) := by
      push_neg
      ring
    show (if N ^ 3 ≠ N ^ 3 then Except.error HaldErr.invalidDimensions
        else if cbrtRnd (N ^ 3) * cbrtRnd (N ^ 3) * cbrtRnd (N ^ 3) ≠ N ^ 3
          then Except.error HaldErr.invalidDimensions
          else Except.ok (cbrtRnd (N ^ 3))) = Except.ok N
    rw [if_neg (by simp), cbrtRnd_cube, if_neg hcond]
  · intro w h hno
    by_cases hwh : w = h
    · subst hwh
      have hlev : cbrtRnd w * cbrtRnd w * cbrtRnd w ≠ w := by
        intro heq
        refine hno ⟨cbrtRnd w, ?_, ?_⟩ <;>
          rw [show cbrtRnd w ^ 3 = cbrtRnd w * cbrtRnd w * cbrtRnd w from by ring, heq]
      show (if w ≠ w then Except.error HaldErr.invalidDimensions
          else if cbrtRnd w * cbrtRnd w * cbrtRnd w ≠ w
            then Except.error HaldErr.invalidDimensions
            else Except.ok (cbrtRnd w)) = Except.error HaldErr.invalidDimensions
      rw [if_neg (by simp), if_pos hlev]
    · show (if w ≠ h then Except.error HaldErr.invalidDimensions
          else if cbrtRnd w * cbrtRnd w * cbrtRnd w ≠ w
            then Except.error HaldErr.invalidDimensions
            else Except.ok (cbrtRnd w)) = Except.error HaldErr.invalidDimensions
      rw [if_pos hwh]
  · intro N
    have hcond : ¬(N * N ≠ N ^ 2 ∨ N * N * N ≠ N ^ 3) := by
      push_neg
      exact ⟨by ring, by ring⟩
    show (if sqrtRnd (N ^ 2) * sqrtRnd (N ^ 2) ≠ N ^ 2 ∨
          sqrtRnd (N ^ 2) * sqrtRnd (N ^ 2) * sqrtRnd (N ^ 2) ≠ N ^ 3
        then Except.error HaldErr.invalidDimensions
        else Except.ok (sqrtRnd (N ^ 2))) = Except.ok N
    rw [sqrtRnd_sq, if_neg hcond]
  · intro w h hno
    have hcond : sqrtRnd h * sqrtRnd h ≠ h ∨ sqrtRnd h * sqrtRnd h * sqrtRnd h ≠ w := by
      by_contra hcc
      push_neg at hcc
      refine hno ⟨sqrtRnd h, ?_, ?_⟩
      · rw [show sqrtRnd h ^ 3 = sqrtRnd h * sqrtRnd h * sqrtRnd h from by ring, hcc.2]
      · rw [show sqrtRnd h ^ 2 = sqrtRnd h * sqrtRnd h from by ring, hcc.1]
    show (if sqrtRnd h * sqrtRnd h ≠ h ∨ sqrtRnd h * sqrtRnd h * sqrtRnd h ≠ w
        then Except.error HaldErr.invalidDimensions
        else Except.ok (sqrtRnd h)) = Except.error HaldErr.invalidDimensions
    rw [if_pos hcond]

theorem no_cube_5 : ¬∃ N : ℕ, 5 = N ^ 3 ∧ 5 = N ^ 3 := by
  rintro ⟨N, h1, -⟩
  have hN : N < 2 := by
    by_contra hc
    push_neg at hc
    have h2 : 2 ^ 3 ≤ N ^ 3 := Nat.pow_le_pow_left hc 3
    omega
  interval_cases N <;> norm_num at h1

theorem no_cube_sq_2_3 : ¬∃ N : ℕ, 2 = N ^ 3 ∧ 3 = N ^ 2 := by
  rintro ⟨N, h1, -⟩
  have hN : N < 2 := by
    by_contra hc
    push_neg at hc
    have h2 : 2 ^ 3 ≤ N ^ 3 := Nat.pow_le_pow_left hc 3
    omega
  interval_cases N <;> norm_num at h1

/-- C9 witness: the theorem applied at concrete dimensions: an 8 by 8 square
is accepted by the cubic layout with level 2, a 5 by 5 square is rejected;
an 8 by 4 image is accepted by the tiled layout with level 2, a 2 by 3 image
is rejected. -/
theorem c9_witness :
    newHALD1 (some (2 ^ 3, 2 ^ 3)) = Except.ok 2 ∧
    newHALD1 (some (5, 5)) = Except.error HaldErr.invalidDimensions ∧
    newHALD2 (some (2 ^ 3, 2 ^ 2)) = Except.ok 2 ∧
    newHALD2 (some (2, 3)) = Except.error HaldErr.invalidDimensions :=
  ⟨c9_newHALD_validates.2.2.1 2,
   c9_newHALD_validates.2.2.2.1 5 5 no_cube_5,
   c9_newHALD_validates.2.2.2.2.1 2,
   c9_newHALD_validates.2.2.2.2.2 2 3 no_cube_sq_2_3⟩

/-! ## C5: the image applicator -/

/-- A pixel as read through the Go image interface RGBA(): four 16 bit
channel values in 0..65535. -/
structure Px16 where
  r : ℕ
  g : ℕ
  b : ℕ
  a : ℕ
deriving DecidableEq

/-- An output pixel of the RGBA raster: four 8 bit channel values. -/
structure Px8 where
  r : ℕ
  g : ℕ
  b : ℕ
  a : ℕ
deriving DecidableEq

/-- Integer rectangle bounds of a Go image. -/
structure Rect where
  minX : ℤ
  minY : ℤ
  maxX : ℤ
  maxY : ℤ
deriving DecidableEq

/-- A source image: bounds plus a pixel read function, the opaque pixel
source of the spec. -/
structure Img where
  bounds : Rect
  atPx : ℤ → ℤ → Px16

/-- The output RGBA raster built by image.NewRGBA and SetRGBA writes:
bounds plus the pixel array, zero initialised. -/
structure OutImg where
  bounds : Rect
  pix : ℤ → ℤ → Px8

/-- A functional write of one pixel, modelling out.SetRGBA(x, y, px). -/
def setPx (o : OutImg) (x y : ℤ) (p : Px8) : OutImg :=
  { o with pix := fun u v => if u = x ∧ v = y then p else o.pix u v }

/-- The integers lo, lo+1, ..., hi-1: the iteration space of a Go for loop
counting from lo while below hi. -/
def intRange (lo hi : ℤ) : List ℤ :=
  (List.range (hi - lo).toNat).map (fun (i : ℕ) => lo + (i : ℤ))

/-- max(0, min(1, q)), the saturation to [0,1] used by the applicator. -/
def clamp01 (q : ℚ) : ℚ := max 0 (min 1 q)

/-- The per pixel body of Cube.processRowScaled: normalize the 16 bit
channels to [0,1], map RGB into the LUT domain, interpolate, blend with the
original by the intensity inside the domain space, map back out of the
domain, saturate to [0,1] and quantize to 8 bits (Go uint8 of a float in
[0,255] truncates, hence the floor); alpha becomes a/257. A panic inside
the interpolation propagates as none. -/
def processPx (c : Cube) (drR drG drB intensity : ℚ) (p : Px16) : Option Px8 := do
  let rNorm : ℚ := (p.r : ℚ) / 65535
  let gNorm : ℚ := (p.g : ℚ) / 65535
  let bNorm : ℚ := (p.b : ℚ) / 65535
  let rLut := c.DomainMin.R + rNorm * drR
  let gLut := c.DomainMin.G + gNorm * drG
  let bLut := c.DomainMin.B + bNorm * drB
  let result ← c.interpolate rLut gLut bLut
  let blendedR := rLut * (1 - intensity) + result.R * intensity
  let blendedG := gLut * (1 - intensity) + result.G * intensity
  let blendedB := bLut * (1 - intensity) + result.B * intensity
  let rOut := clamp01 ((blendedR - c.DomainMin.R) / drR)
  let gOut := clamp01 ((blendedG - c.DomainMin.G) / drG)
  let bOut := clamp01 ((blendedB - c.DomainMin.B) / drB)
  pure ⟨(⌊rOut * 255⌋).toNat, (⌊gOut * 255⌋).toNat, (⌊bOut * 255⌋).toNat, p.a / 257⟩

/-- Cube.processRowScaled: processes every pixel of row y. -/
def processRowScaled (c : Cube) (img : Img) (drR drG drB intensity : ℚ)
    (y : ℤ) (o : OutImg) : Option OutImg :=
  (intRange img.bounds.minX img.bounds.maxX).foldlM
    (fun acc x => do
      let p ← processPx c drR drG drB intensity (img.atPx x y)
      pure (setPx acc x y p)) o

/-- Cube.ApplyScaled: clamps the intensity to [0,1], precomputes the three
domain ranges, and processes every row of the input bounds into a fresh
zero raster with the same bounds. The Go rows run in parallel with a final
join, each goroutine writing a disjoint output row, so the sequential row
fold computes the same raster. -/
def Cube.ApplyScaled (c : Cube) (img : Img) (intensity : ℚ) : Option OutImg :=
  let intensity2 := max 0 (min 1 intensity)
  let drR := c.DomainMax.R - c.DomainMin.R
  let drG := c.DomainMax.G - c.DomainMin.G
  let drB := c.DomainMax.B - c.DomainMin.B
  let o0 : OutImg := ⟨img.bounds, fun _ _ => ⟨0, 0, 0, 0⟩⟩
  (intRange img.bounds.minY img.bounds.maxY).foldlM
    (fun o y => processRowScaled c img drR drG drB intensity2 y o) o0

/-- Cube.Apply: ApplyScaled with full intensity 1.0. -/
def Cube.Apply (c : Cube) (img : Img) : Option OutImg := c.ApplyScaled img 1

/-- The total value of processPx, used to express the fold result. -/
def pxVal (c : Cube) (drR drG drB intensity : ℚ) (p : Px16) : Px8 :=
  (processPx c drR drG drB intensity p).getD ⟨0, 0, 0, 0⟩

theorem interpolate_exists_some (c : Cube) (hN : 1 ≤ c.LUT3Dsize) (r g b : ℚ) :
    ∃ s, c.interpolate r g b = some s := by
  have h := interpCore_isSome c hN
    (latticeCoord c.DomainMin.R c.DomainMax.R ((c.LUT3Dsize : ℚ) - 1) r)
    (latticeCoord c.DomainMin.G c.DomainMax.G ((c.LUT3Dsize : ℚ) - 1) g)
    (latticeCoord c.DomainMin.B c.DomainMax.B ((c.LUT3Dsize : ℚ) - 1) b)
    (clampIdx_nonneg _ _) (clampIdx_nonneg _ _) (clampIdx_nonneg _ _)
  exact Option.isSome_iff_exists.mp h

theorem processPx_some (c : Cube) (hN : 1 ≤ c.LUT3Dsize) (drR drG drB t : ℚ) (p : Px16) :
    processPx c drR drG drB t p = some (pxVal c drR drG drB t p) := by
  obtain ⟨s, hs⟩ := interpolate_exists_some c hN
    (c.DomainMin.R + (p.r : ℚ) / 65535 * drR)
    (c.DomainMin.G + (p.g : ℚ) / 65535 * drG)
    (c.DomainMin.B + (p.b : ℚ) / 65535 * drB)
  rw [pxVal, processPx]
  rw [hs]
  rfl

theorem foldlM_eq_foldl (f : OutImg → ℤ → Option OutImg) (g : OutImg → ℤ → OutImg)
    (hfg : ∀ o z, f o z = some (g o z)) :
    ∀ (l : List ℤ) (o : OutImg), l.foldlM f o = some (l.foldl g o)
  | [], o => rfl
  | z :: tl, o => by
    rw [List.foldlM_cons, hfg]
    show List.foldlM f (g o z) tl = some (List.foldl g o (z :: tl))
    rw [List.foldl_cons]
    exact foldlM_eq_foldl f g hfg tl (g o z)

theorem foldl_row_pix (val : ℤ → ℤ → Px8) (y : ℤ) :
    ∀ (xs : List ℤ) (o : OutImg) (u v : ℤ),
      (xs.foldl (fun acc x => setPx acc x y (val x y)) o).pix u v =
        if v = y ∧ u ∈ xs then val u v else o.pix u v
  | [], o, u, v => by simp
  | x :: tl, o, u, v => by
    rw [List.foldl_cons, foldl_row_pix val y tl (setPx o x y (val x y)) u v]
    by_cases h1 : v = y ∧ u ∈ tl
    · rw [if_pos h1, if_pos ⟨h1.1, List.mem_cons_of_mem x h1.2⟩]
    · rw [if_neg h1]
      simp only [setPx]
      by_cases h2 : u = x ∧ v = y
      · rw [if_pos h2, if_pos ⟨h2.2, by simp [h2.1]⟩, h2.2, h2.1]
      · rw [if_neg h2, if_neg ?hno]
        case hno =>
          intro hcontra
          rcases List.mem_cons.mp hcontra.2 with h4 | h4
          · exact h2 ⟨h4, hcontra.1⟩
          · exact h1 ⟨hcontra.1, h4⟩

theorem foldl_rows_pix (val : ℤ → ℤ → Px8) (xs : List ℤ) :
    ∀ (ys : List ℤ) (o : OutImg) (u v : ℤ),
      (ys.foldl (fun acc y => xs.foldl (fun a x => setPx a x y (val x y)) acc) o).pix u v =
        if v ∈ ys ∧ u ∈ xs then val u v else o.pix u v
  | [], o, u, v => by simp
  | yy :: tl, o, u, v => by
    rw [List.foldl_cons, foldl_rows_pix val xs tl _ u v]
    by_cases h1 : v ∈ tl ∧ u ∈ xs
    · rw [if_pos h1, if_pos ⟨List.mem_cons_of_mem yy h1.1, h1.2⟩]
    · rw [if_neg h1, foldl_row_pix val yy xs o u v]
      by_cases h2 : v = yy ∧ u ∈ xs
      · rw [if_pos h2, if_pos ⟨by simp [h2.1], h2.2⟩]
      · rw [if_neg h2, if_neg ?hno]
        case hno =>
          intro hcontra
          rcases List.mem_cons.mp hcontra.1 with h4 | h4
          · exact h2 ⟨h4, hcontra.2⟩
          · exact h1 ⟨h4, hcontra.2⟩

theorem foldl_row_bounds (val : ℤ → ℤ → Px8) (y : ℤ) :
    ∀ (xs : List ℤ) (o : OutImg),
      (xs.foldl (fun acc x => setPx acc x y (val x y)) o).bounds = o.bounds
  | [], _ => rfl
  | x :: tl, o => by
    rw [List.foldl_cons, foldl_row_bounds val y tl (setPx o x y (val x y))]
    rfl

theorem foldl_rows_bounds (val : ℤ → ℤ → Px8) (xs : List ℤ) :
    ∀ (ys : List ℤ) (o : OutImg),
      (ys.foldl (fun acc y => xs.foldl (fun a x => setPx a x y (val x y)) acc) o).bounds =
        o.bounds
  | [], _ => rfl
  | yy :: tl, o => by
    rw [List.foldl_cons, foldl_rows_bounds val xs tl _, foldl_row_bounds val yy xs o]

theorem mem_intRange (lo hi u : ℤ) : u ∈ intRange lo hi ↔ lo ≤ u ∧ u < hi := by
  unfold intRange
  rw [List.mem_map]
  constructor
  · rintro ⟨i, hi2, rfl⟩
    rw [List.mem_range] at hi2
    refine ⟨by omega, by omega⟩
  · rintro ⟨h1, h2⟩
    refine ⟨(u - lo).toNat, ?_, ?_⟩
    · rw [List.mem_range]
      omega
    · omega

/-- The output contract of the Image Applicator as the specification states
it, transcribed for comparison with the implementation: identical bounds,
and for every pixel inside the bounds the original RGB is normalized to
[0,1], mapped into the LUT domain, the LUT is evaluated by trilinear
interpolation, the output RGB is original*(1-t) + interpolated*t computed in
the LUT domain space, mapped back out of the domain to [0,1], saturated and
quantized to 8 bits, and the alpha channel passes through unchanged (the 16
bit alpha stored as the 8 bit value a/257); the intensity is used clamped
to [0,1]. -/
def applicatorSpec (c : Cube) (img : Img) (t : ℚ) (out : OutImg) : Prop :=
  out.bounds = img.bounds ∧
  ∀ x y : ℤ, img.bounds.minX ≤ x → x < img.bounds.maxX →
    img.bounds.minY ≤ y → y < img.bounds.maxY →
    let t2 := max 0 (min 1 t)
    let p := img.atPx x y
    let rLut := c.DomainMin.R + (p.r : ℚ) / 65535 * (c.DomainMax.R - c.DomainMin.R)
    let gLut := c.DomainMin.G + (p.g : ℚ) / 65535 * (c.DomainMax.G - c.DomainMin.G)
    let bLut := c.DomainMin.B + (p.b : ℚ) / 65535 * (c.DomainMax.B - c.DomainMin.B)
    ∃ s, c.interpolate rLut gLut bLut = some s ∧
      out.pix x y = ⟨
        (⌊clamp01 ((rLut * (1 - t2) + s.R * t2 - c.DomainMin.R) /
          (c.DomainMax.R - c.DomainMin.R)) * 255⌋).toNat,
        (⌊clamp01 ((gLut * (1 - t2) + s.G * t2 - c.DomainMin.G) /
          (c.DomainMax.G - c.DomainMin.G)) * 255⌋).toNat,
        (⌊clamp01 ((bLut * (1 - t2) + s.B * t2 - c.DomainMin.B) /
          (c.DomainMax.B - c.DomainMin.B)) * 255⌋).toNat,
        p.a / 257⟩

/-- C5: for every source image and every intensity t, on a cube whose level
is at least 1 (so no interpolation lookup can panic), ApplyScaled succeeds
and returns an output raster satisfying the applicator contract: bounds
identical to the input, each in bounds output pixel RGB equal to
original*(1-t) + interpolated*t computed in the LUT domain space, mapped
back out of the domain to [0,1] and saturated, with the intensity clamped
to [0,1] and the alpha channel passed through unchanged; Apply equals
ApplyScaled with t = 1. -/
theorem c5_applyScaled (c : Cube) (img : Img) (t : ℚ) (hN : 1 ≤ c.LUT3Dsize) :
    ∃ out, c.ApplyScaled img t = some out ∧ applicatorSpec c img t out ∧
      c.Apply img = c.ApplyScaled img 1 := by
  set t2 := max 0 (min 1 t) with ht2
  set drR := c.DomainMax.R - c.DomainMin.R with hdrR
  set drG := c.DomainMax.G - c.DomainMin.G with hdrG
  set drB := c.DomainMax.B - c.DomainMin.B with hdrB
  set val : ℤ → ℤ → Px8 := fun x y => pxVal c drR drG drB t2 (img.atPx x y) with hval
  set o0 : OutImg := ⟨img.bounds, fun _ _ => ⟨0, 0, 0, 0⟩⟩ with ho0
  have hrow : ∀ (o : OutImg) (y : ℤ), processRowScaled c img drR drG drB t2 y o =
      some ((intRange img.bounds.minX img.bounds.maxX).foldl
        (fun a x => setPx a x y (val x y)) o) := by
    intro o y
    unfold processRowScaled
    apply foldlM_eq_foldl
    intro o2 x
    rw [hval]
    show (processPx c drR drG drB t2 (img.atPx x y) >>= fun p =>
      pure (setPx o2 x y p)) = _
    rw [processPx_some c hN]
    rfl
  have happ : c.ApplyScaled img t =
      some ((intRange img.bounds.minY img.bounds.maxY).foldl
        (fun acc y => (intRange img.bounds.minX img.bounds.maxX).foldl
          (fun a x => setPx a x y (val x y)) acc) o0) := by
    show (intRange img.bounds.minY img.bounds.maxY).foldlM
        (fun o y => processRowScaled c img drR drG drB t2 y o) o0 = _
    apply foldlM_eq_foldl
    intro o y
    exact hrow o y
  refine ⟨_, happ, ?_, rfl⟩
  unfold applicatorSpec
  refine ⟨?_, ?_⟩
  · rw [foldl_rows_bounds]
  · intro x y hx1 hx2 hy1 hy2
    obtain ⟨s, hs⟩ := interpolate_exists_some c hN
      (c.DomainMin.R + ((img.atPx x y).r : ℚ) / 65535 * drR)
      (c.DomainMin.G + ((img.atPx x y).g : ℚ) / 65535 * drG)
      (c.DomainMin.B + ((img.atPx x y).b : ℚ) / 65535 * drB)
    refine ⟨s, hs, ?_⟩
    rw [foldl_rows_pix]
    rw [if_pos ⟨(mem_intRange _ _ _).mpr ⟨hy1, hy2⟩, (mem_intRange _ _ _).mpr ⟨hx1, hx2⟩⟩]
    rw [hval]
    show pxVal c drR drG drB t2 (img.atPx x y) = _
    rw [pxVal, processPx, hs]
    rfl

/-- A 1 by 1 source image with a pure red opaque pixel. -/
def imgW : Img := ⟨⟨0, 0, 1, 1⟩, fun _ _ => ⟨65535, 0, 0, 65535⟩⟩

/-- C5 witness: the theorem applied to a concrete one sample cube and a
concrete 1 by 1 image at intensity one half. -/
theorem c5_witness :
    (1 : ℤ) ≤ cubeOne.LUT3Dsize ∧
    (∃ out, cubeOne.ApplyScaled imgW (1/2) = some out ∧
      applicatorSpec cubeOne imgW (1/2) out ∧
      cubeOne.Apply imgW = cubeOne.ApplyScaled imgW 1) :=
  ⟨by decide, c5_applyScaled cubeOne imgW (1/2) (by decide)⟩

/-! ## The grid text codec: Load and WriteTo of cube.go

Lines are lists of characters; the line scanner is modelled by passing the
list of lines, each WriteTo print ends with a newline so a reload scans
exactly the emitted lines (the raw Meta block contributes its newline
separated lines). Character class note: Char.isWhitespace covers the ASCII
space, tab, carriage return and newline; the additional unicode space code
points accepted by Go are outside the model. -/

/-- strings.TrimSpace: drop whitespace from both ends. -/
def trim (l : Str) : Str :=
  ((l.dropWhile Char.isWhitespace).reverse.dropWhile Char.isWhitespace).reverse

/-- Split at every whitespace character; helper for fields. -/
def splitWs : Str → List Str
  | [] => [[]]
  | c :: r =>
    if c.isWhitespace then [] :: splitWs r
    else
      match splitWs r with
      | [] => [[c]]
      | h :: t2 => (c :: h) :: t2

/-- strings.Fields: the maximal runs of non whitespace characters. -/
def fields (l : Str) : List Str := (splitWs l).filter (fun w => w ≠ [])

/-- Split at every newline character: the lines bufio.Scanner yields from a
block of text. -/
def splitNl : Str → List Str
  | [] => [[]]
  | c :: r =>
    if c = '\n' then [] :: splitNl r
    else
      match splitNl r with
      | [] => [[c]]
      | h :: t2 => (c :: h) :: t2

/-- Join with newline characters, the left inverse of splitNl. -/
def joinNl : List Str → Str
  | [] => []
  | [l] => l
  | l :: t2 => l ++ '\n' :: joinNl t2

/-- strings.Index for a single character: the first position, none when the
character is absent (Go returns -1 there). -/
def idxOfC (c : Char) : Str → Option ℕ
  | [] => none
  | d :: r => if d = c then some 0 else (idxOfC c r).map (· + 1)

/-- strings.LastIndex for a single character. -/
def lastIdxOfC (c : Char) (l : Str) : Option ℕ :=
  (idxOfC c l.reverse).map (fun i => l.length - 1 - i)

/-- Consume an expected literal from the head of the input: the literal
matching part of fmt.Sscanf. -/
def dropLit : Str → Str → Option Str
  | [], r => some r
  | _ :: _, [] => none
  | k :: ks, c :: cs => if c = k then dropLit ks cs else none

/-- The numeric value of a run of decimal digits, most significant first. -/
def digitsVal (l : Str) : ℕ :=
  Nat.ofDigits 10 ((l.map (fun c => c.toNat - 48)).reverse)

/-- The fractional value of the digit run after a decimal point. -/
def fracVal (l : Str) : ℚ := (digitsVal l : ℚ) / 10 ^ l.length

/-- The maximal decimal integer token at the head of the input with an
optional sign, as consumed by the %d verb of fmt.Sscanf; value and rest. -/
def parseIntTok (l : Str) : Option (ℤ × Str) :=
  let l1 : Str := if l.head? = some '-' ∨ l.head? = some '+' then l.tail else l
  let ds := l1.takeWhile Char.isDigit
  if ds = [] then none
  else some ((if l.head? = some '-' then -(digitsVal ds : ℤ) else (digitsVal ds : ℤ)),
    l1.dropWhile Char.isDigit)

/-- The maximal decimal float token at the head of the input: optional
sign, integer digits, optional point and fraction digits, as consumed by
the %f verb of fmt.Sscanf on the plain decimal numbers this codec ever
emits (exponent, hex, infinity and NaN forms are outside the model);
returns the value and the rest. -/
def parseFloatTok (l : Str) : Option (ℚ × Str) :=
  let l1 : Str := if l.head? = some '-' ∨ l.head? = some '+' then l.tail else l
  let ip := l1.takeWhile Char.isDigit
  let l2 := l1.dropWhile Char.isDigit
  if l2.head? = some '.' then
    let fp := l2.tail.takeWhile Char.isDigit
    let l3 := l2.tail.dropWhile Char.isDigit
    if ip = [] ∧ fp = [] then none
    else some ((if l.head? = some '-' then -((digitsVal ip : ℚ) + fracVal fp)
      else (digitsVal ip : ℚ) + fracVal fp), l3)
  else if ip = [] then none
  else some ((if l.head? = some '-' then -(digitsVal ip : ℚ)
    else (digitsVal ip : ℚ)), l2)

/-- The decimal digit character for d below 10. -/
def digitChr (d : ℕ) : Char := Char.ofNat (48 + d)

/-- The decimal digits of a natural number, most significant first, with
"0" for zero: the %d formatting. -/
def natRepr (n : ℕ) : Str :=
  if n = 0 then ['0'] else ((Nat.digits 10 n).map digitChr).reverse

/-- The %d formatting of an integer. -/
def intRepr (n : ℤ) : Str :=
  if n < 0 then '-' :: natRepr n.natAbs else natRepr n.natAbs

/-- Left pad with zero digits to width k. -/
def padZeros (k : ℕ) (l : Str) : Str := List.replicate (k - l.length) '0' ++ l

/-- The nearest integer to |q| * 10^6: the numerator of the 6 decimal
rounding that %f performs at its default precision. -/
def n6 (q : ℚ) : ℕ := (round (|q| * 1000000)).toNat

/-- The value a float prints as under %f: its 6 decimal rounding. -/
def round6 (q : ℚ) : ℚ :=
  (if q < 0 then -(n6 q : ℚ) else (n6 q : ℚ)) / 1000000

/-- The %f formatting of a float value (as its exact rational): optional
minus sign, integer digits, a point, exactly 6 fraction digits. -/
def fmtF (q : ℚ) : Str :=
  (if q < 0 then ['-'] else []) ++
    natRepr (n6 q / 1000000) ++ '.' :: padZeros 6 (natRepr (n6 q % 1000000))

/-- Sample.String: "%f %f %f". -/
def fmtSample (s : Sample) : Str := fmtF s.R ++ ' ' :: fmtF s.G ++ ' ' :: fmtF s.B

/-- The 6 decimal rounding of every channel of a sample. -/
def round6S (s : Sample) : Sample := ⟨round6 s.R, round6 s.G, round6 s.B⟩

/-- The TITLE keyword. -/
def kwTITLE : Str := ['T', 'I', 'T', 'L', 'E']

/-- The LUT_3D_SIZE keyword. -/
def kwSIZE : Str := ['L', 'U', 'T', '_', '3', 'D', '_', 'S', 'I', 'Z', 'E']

/-- The DOMAIN_MIN keyword. -/
def kwDMIN : Str := ['D', 'O', 'M', 'A', 'I', 'N', '_', 'M', 'I', 'N']

/-- The DOMAIN_MAX keyword. -/
def kwDMAX : Str := ['D', 'O', 'M', 'A', 'I', 'N', '_', 'M', 'A', 'X']

/-- The TITLE branch of Load: the text between the first and the last quote
when both exist with the last strictly after the first; otherwise the title
is left unchanged and no error is raised. -/
def titleOf (line : Str) : Option Str :=
  match idxOfC '"' line with
  | none => none
  | some s =>
    match lastIdxOfC '"' line with
    | none => none
    | some e =>
      if s < e then some ((line.drop (s + 1)).take (e - s - 1)) else none

/-- Sscanf(line, "LUT_3D_SIZE %d"): match the literal, then %d skips spaces
and reads a decimal integer. -/
def parseSizeLine (line : Str) : Option ℤ := do
  let rest ← dropLit kwSIZE line
  let p ← parseIntTok (rest.dropWhile Char.isWhitespace)
  some p.1

/-- Three %f verbs in sequence, each skipping leading spaces. -/
def parse3FAfter (rest : Str) : Option Sample := do
  let p1 ← parseFloatTok (rest.dropWhile Char.isWhitespace)
  let p2 ← parseFloatTok (p1.2.dropWhile Char.isWhitespace)
  let p3 ← parseFloatTok (p2.2.dropWhile Char.isWhitespace)
  some ⟨p1.1, p2.1, p3.1⟩

/-- Sscanf(line, "KEYWORD %f %f %f") for the two domain lines. -/
def parseDomLine (kw : Str) (line : Str) : Option Sample := do
  let rest ← dropLit kw line
  parse3FAfter rest

/-- Sscanf(line, "%f %f %f") for a sample line. -/
def parseSampleLine (line : Str) : Option Sample := parse3FAfter line

/-- The classification and payload of one scanned line, following the
switch in Load in source order: TITLE, LUT_3D_SIZE, DOMAIN_MIN, DOMAIN_MAX,
metadata (prefix #), a 3 field sample row, and anything else unrecognised;
a none payload on a keyword or sample line is an Sscanf error. -/
inductive LineK where
  | empty
  | title (t : Option Str)
  | size (n : Option ℤ)
  | dmin (s : Option Sample)
  | dmax (s : Option Sample)
  | meta (m : Str)
  | samp (s : Option Sample)
  | bad
deriving DecidableEq

/-- Classify one raw scanned line as the Load switch does. -/
def lineKind (raw : Str) : LineK :=
  let line := trim raw
  if line = [] then .empty
  else
    match fields line with
    | [] => .empty
    | f :: _ =>
      if f = kwTITLE then .title (titleOf line)
      else if f = kwSIZE then .size (parseSizeLine line)
      else if f = kwDMIN then .dmin (parseDomLine kwDMIN line)
      else if f = kwDMAX then .dmax (parseDomLine kwDMAX line)
      else if line.head? = some '#' then .meta line
      else if (fields line).length = 3 then .samp (parseSampleLine line)
      else .bad

/-- One iteration of the Load scan loop on the accumulated cube. -/
def loadStep (c : Cube) (raw : Str) : Except CubeErr Cube :=
  match lineKind raw with
  | .empty => .ok c
  | .title none => .ok c
  | .title (some t) => .ok { c with Title := t }
  | .size none => .error .scanErr
  | .size (some n) => .ok { c with LUT3Dsize := n }
  | .dmin none => .error .scanErr
  | .dmin (some s) => .ok { c with DomainMin := s }
  | .dmax none => .error .scanErr
  | .dmax (some s) => .ok { c with DomainMax := s }
  | .meta m => .ok { c with Meta := if c.Meta = [] then m else c.Meta ++ '\n' :: m }
  | .samp none => .error .scanErr
  | .samp (some s) => .ok { c with Samples := c.Samples ++ [s] }
  | .bad => .error .unrecognisedLine

/-- The zero Cube value the Load loop starts from. -/
def cube0 : Cube := ⟨[], [], 0, ⟨0, 0, 0⟩, ⟨0, 0, 0⟩, []⟩

/-- The Load scan loop over the scanned lines. -/
def loadLines : Cube → List Str → Except CubeErr Cube
  | c, [] => .ok c
  | c, l :: ls =>
    match loadStep c l with
    | .ok c2 => loadLines c2 ls
    | .error e => .error e

/-- Load from cube.go, on the list of lines the scanner yields; on an error
the Go code returns the zero Cube together with the error, modelled by the
error alone. -/
def Load (ls : List Str) : Except CubeErr Cube := loadLines cube0 ls

/-- The lines WriteTo emits: optional TITLE line, the raw Meta block (its
own newline separated lines), the LUT_3D_SIZE line, a blank line, the two
domain lines, a blank line, then one line per sample. -/
def writeLines (c : Cube) : List Str :=
  (if c.Title = [] then [] else [kwTITLE ++ ' ' :: '"' :: (c.Title ++ ['"'])]) ++
  (if c.Meta = [] then [] else splitNl c.Meta) ++
  [kwSIZE ++ ' ' :: intRepr c.LUT3Dsize, []] ++
  [kwDMIN ++ ' ' :: fmtSample c.DomainMin,
   kwDMAX ++ ' ' :: fmtSample c.DomainMax, []] ++
  c.Samples.map fmtSample

/-- The sample rows of a line list in order: the payloads of the lines the
Load switch classifies as well formed sample lines. -/
def gridSamples (ls : List Str) : List Sample :=
  ls.foldr (fun l acc =>
    match lineKind l with
    | .samp (some s) => s :: acc
    | _ => acc) []

/-! ## C1: Load never truncates or pads, but does not validate the count -/

theorem loadLines_samples_exact : ∀ (ls : List Str) (c0 c : Cube),
    loadLines c0 ls = .ok c → c.Samples = c0.Samples ++ gridSamples ls
  | [], c0, c, h => by
    have h2 : c0 = c := by
      have h3 : Except.ok (ε := CubeErr) c0 = .ok c := h
      injection h3
    subst h2
    simp [gridSamples]
  | l :: ls, c0, c, h => by
    have hgrid : gridSamples (l :: ls) =
        (match lineKind l with
          | LineK.samp (some s) => s :: gridSamples ls
          | _ => gridSamples ls) := rfl
    rw [loadLines, loadStep] at h
    rw [hgrid]
    cases hk : lineKind l with
    | empty =>
      rw [hk] at h
      exact loadLines_samples_exact ls c0 c h
    | title t? =>
      rw [hk] at h
      cases t? with
      | none => exact loadLines_samples_exact ls c0 c h
      | some t => exact loadLines_samples_exact ls { c0 with Title := t } c h
    | size n? =>
      rw [hk] at h
      cases n? with
      | none => exact Except.noConfusion h
      | some n => exact loadLines_samples_exact ls { c0 with LUT3Dsize := n } c h
    | dmin s? =>
      rw [hk] at h
      cases s? with
      | none => exact Except.noConfusion h
      | some s => exact loadLines_samples_exact ls { c0 with DomainMin := s } c h
    | dmax s? =>
      rw [hk] at h
      cases s? with
      | none => exact Except.noConfusion h
      | some s => exact loadLines_samples_exact ls { c0 with DomainMax := s } c h
    | meta m =>
      rw [hk] at h
      exact loadLines_samples_exact ls
        { c0 with Meta := if c0.Meta = [] then m else c0.Meta ++ '\n' :: m } c h
    | samp s? =>
      rw [hk] at h
      cases s? with
      | none => exact Except.noConfusion h
      | some s =>
        have h2 := loadLines_samples_exact ls { c0 with Samples := c0.Samples ++ [s] } c h
        simpa [List.append_assoc] using h2
    | bad =>
      rw [hk] at h
      exact Except.noConfusion h

/-- C1 amended: Load appends exactly one sample per well formed sample line
in file order, never truncating or padding relative to the file content;
but it does not enforce len(Samples) = LUT3Dsize cubed, so a grid file
whose sample line count differs from N cubed still parses successfully into
a Cube violating the invariant. -/
theorem c1_load_samples (ls : List Str) (c : Cube) (h : Load ls = Except.ok c) :
    c.Samples = gridSamples ls := by
  have h2 := loadLines_samples_exact ls cube0 c h
  simpa [cube0] using h2

theorem load_two_lines :
    Load ["LUT_3D_SIZE 2".toList, "0 0 0".toList] =
      Except.ok ⟨[], [], 2, ⟨0, 0, 0⟩, ⟨0, 0, 0⟩, [⟨0, 0, 0⟩]⟩ := by
  have h : (Load ["LUT_3D_SIZE 2".toList, "0 0 0".toList]).toOption.map
      (fun c => ((c.Title, c.Meta, c.LUT3Dsize), (c.DomainMin, c.DomainMax, c.Samples))) =
      some (([], [], 2), (⟨0, 0, 0⟩, ⟨0, 0, 0⟩, [⟨0, 0, 0⟩])) := by decide
  cases hc : Load ["LUT_3D_SIZE 2".toList, "0 0 0".toList] with
  | error e => rw [hc] at h; exact Option.noConfusion h
  | ok c =>
    rw [hc] at h
    simp only [Except.toOption, Option.map_some] at h
    have h2 := Option.some.inj h
    cases c
    simp only [Prod.mk.injEq] at h2
    obtain ⟨⟨e1, e2, e3⟩, e4, e5, e6⟩ := h2
    subst e1; subst e2; subst e3; subst e4; subst e5; subst e6
    rfl

/-- C1 counterexample: a grid file declaring LUT_3D_SIZE 2 with a single
sample line parses without any error into a Cube with 1 sample, although
2 cubed is 8: the construction path is not a hard error. -/
theorem c1_counterexample :
    Load ["LUT_3D_SIZE 2".toList, "0 0 0".toList] =
      Except.ok ⟨[], [], 2, ⟨0, 0, 0⟩, ⟨0, 0, 0⟩, [⟨0, 0, 0⟩]⟩ ∧
    ([(⟨0, 0, 0⟩ : Sample)].length : ℤ) ≠ 2 ^ 3 :=
  ⟨load_two_lines, by decide⟩

/-- C1 witness: the amended theorem applied to the concrete two line file. -/
theorem c1_witness :
    Load ["LUT_3D_SIZE 2".toList, "0 0 0".toList] =
      Except.ok ⟨[], [], 2, ⟨0, 0, 0⟩, ⟨0, 0, 0⟩, [⟨0, 0, 0⟩]⟩ ∧
    (⟨[], [], 2, ⟨0, 0, 0⟩, ⟨0, 0, 0⟩, [⟨0, 0, 0⟩]⟩ : Cube).Samples =
      gridSamples ["LUT_3D_SIZE 2".toList, "0 0 0".toList] :=
  ⟨load_two_lines, c1_load_samples _ _ load_two_lines⟩

/-! ## C3: round trip of WriteTo and Load. Digit and string lemmas first. -/

theorem digitChr_isDigit (d : ℕ) (h : d < 10) : (digitChr d).isDigit = true := by
  interval_cases d <;> decide

theorem digitChr_val (d : ℕ) (h : d < 10) : (digitChr d).toNat - 48 = d := by
  interval_cases d <;> decide

theorem natRepr_all_digits (n : ℕ) : ∀ c ∈ natRepr n, c.isDigit = true := by
  unfold natRepr
  split
  · intro c hc
    simp only [List.mem_singleton] at hc
    subst hc
    decide
  · intro c hc
    rw [List.mem_reverse] at hc
    obtain ⟨d, hd, rfl⟩ := List.mem_map.mp hc
    exact digitChr_isDigit d (Nat.digits_lt_base (by norm_num) hd)

theorem natRepr_ne_nil (n : ℕ) : natRepr n ≠ [] := by
  unfold natRepr
  split
  · simp
  · rename_i h
    simp [Nat.digits_ne_nil_iff_ne_zero, h]

theorem digitsVal_natRepr (n : ℕ) : digitsVal (natRepr n) = n := by
  unfold digitsVal natRepr
  split
  · rename_i h
    subst h
    decide
  · have hmap : ∀ ds : List ℕ, (∀ d ∈ ds, d < 10) →
        ds.map (fun d => (digitChr d).toNat - 48) = ds := by
      intro ds hds
      induction ds with
      | nil => rfl
      | cons d t ih =>
        rw [List.map_cons, digitChr_val d (hds d (List.mem_cons_self d t)),
          ih (fun x hx => hds x (List.mem_cons_of_mem d hx))]
    rw [List.map_reverse, List.reverse_reverse, List.map_map]
    have h2 : ((fun c => c.toNat - 48) ∘ digitChr) = fun d => (digitChr d).toNat - 48 := rfl
    rw [h2, hmap _ (fun d hd => Nat.digits_lt_base (by norm_num) hd)]
    exact Nat.ofDigits_digits 10 n

theorem natRepr_len_le (n k : ℕ) (hk : 1 ≤ k) (h : n < 10 ^ k) :
    (natRepr n).length ≤ k := by
  unfold natRepr
  split
  · simpa using hk
  · rename_i hn
    rw [List.length_reverse, List.length_map]
    rw [Nat.digits_len 10 n (by norm_num) hn]
    have h2 := Nat.log_lt_of_lt_pow hn h
    omega

theorem takeWhile_append_all (p : Char → Bool) (l1 l2 : Str)
    (h : ∀ c ∈ l1, p c = true) :
    (l1 ++ l2).takeWhile p = l1 ++ l2.takeWhile p := by
  induction l1 with
  | nil => rfl
  | cons c t ih =>
    rw [List.cons_append, List.takeWhile_cons, h c (List.mem_cons_self c t)]
    rw [ih (fun x hx => h x (List.mem_cons_of_mem c hx))]
    rfl

theorem dropWhile_append_all (p : Char → Bool) (l1 l2 : Str)
    (h : ∀ c ∈ l1, p c = true) :
    (l1 ++ l2).dropWhile p = l2.dropWhile p := by
  induction l1 with
  | nil => rfl
  | cons c t ih =>
    rw [List.cons_append, List.dropWhile_cons, h c (List.mem_cons_self c t)]
    rw [ih (fun x hx => h x (List.mem_cons_of_mem c hx))]
    rfl

theorem takeWhile_all_eq (p : Char → Bool) (l : Str) (h : ∀ c ∈ l, p c = true) :
    l.takeWhile p = l := by
  have h2 := takeWhile_append_all p l [] h
  simpa using h2

theorem dropWhile_all_nil (p : Char → Bool) (l : Str) (h : ∀ c ∈ l, p c = true) :
    l.dropWhile p = [] := by
  have h2 := dropWhile_append_all p l [] h
  simpa using h2

theorem takeWhile_head_neg (p : Char → Bool) (l : Str)
    (h : ∀ c, l.head? = some c → p c = false) : l.takeWhile p = [] := by
  cases l with
  | nil => rfl
  | cons c t =>
    rw [List.takeWhile_cons, h c rfl]
    rfl

theorem dropWhile_head_neg (p : Char → Bool) (l : Str)
    (h : ∀ c, l.head? = some c → p c = false) : l.dropWhile p = l := by
  cases l with
  | nil => rfl
  | cons c t =>
    rw [List.dropWhile_cons, h c rfl]
    rfl

theorem trim_eq_self (l : Str)
    (h1 : ∀ c, l.head? = some c → c.isWhitespace = false)
    (h2 : ∀ c, l.getLast? = some c → c.isWhitespace = false) :
    trim l = l := by
  unfold trim
  rw [dropWhile_head_neg _ _ h1]
  rw [dropWhile_head_neg _ _ (fun c hc => h2 c (by rwa [List.head?_reverse] at hc))]
  exact List.reverse_reverse l

theorem splitWs_ne_nil (l : Str) : splitWs l ≠ [] := by
  cases l with
  | nil => simp [splitWs]
  | cons c r =>
    rw [splitWs]
    split
    · simp
    · split <;> simp

theorem splitWs_all_not (w : Str) (h : ∀ c ∈ w, c.isWhitespace = false) :
    splitWs w = [w] := by
  induction w with
  | nil => rfl
  | cons c t ih =>
    rw [splitWs, if_neg (by simp [h c (List.mem_cons_self c t)])]
    rw [ih (fun x hx => h x (List.mem_cons_of_mem c hx))]

theorem splitWs_word (w : Str) (hw : ∀ c ∈ w, c.isWhitespace = false)
    (c0 : Char) (hc0 : c0.isWhitespace = true) (r : Str) :
    splitWs (w ++ c0 :: r) = w :: splitWs r := by
  induction w with
  | nil => rw [List.nil_append, splitWs, if_pos hc0]
  | cons c t ih =>
    rw [List.cons_append, splitWs, if_neg (by simp [hw c (List.mem_cons_self c t)])]
    rw [ih (fun x hx => hw x (List.mem_cons_of_mem c hx))]

theorem fields_word (w : Str) (hw : ∀ c ∈ w, c.isWhitespace = false) (hne : w ≠ [])
    (c0 : Char) (hc0 : c0.isWhitespace = true) (r : Str) :
    fields (w ++ c0 :: r) = w :: fields r := by
  unfold fields
  rw [splitWs_word w hw c0 hc0 r, List.filter_cons, if_pos (decide_eq_true hne)]

theorem fields_single (w : Str) (hw : ∀ c ∈ w, c.isWhitespace = false) (hne : w ≠ []) :
    fields w = [w] := by
  unfold fields
  rw [splitWs_all_not w hw, List.filter_cons, if_pos (decide_eq_true hne)]
  rfl

theorem fields_cons_not_ws (d : Char) (hd : d.isWhitespace = false) (r : Str) :
    ∃ w t2, fields (d :: r) = (d :: w) :: t2 := by
  rw [fields, splitWs, if_neg (by simp [hd])]
  rcases hsp : splitWs r with _ | ⟨h1, t1⟩
  · exact absurd hsp (splitWs_ne_nil r)
  · refine ⟨h1, t1.filter (fun w => w ≠ []), ?_⟩
    rw [List.filter_cons, if_pos (decide_eq_true (by simp))]

theorem idxOfC_not_mem_append (c : Char) (p : Str) (hp : c ∉ p) (r : Str) :
    idxOfC c (p ++ c :: r) = some p.length := by
  induction p with
  | nil => rw [List.nil_append, idxOfC, if_pos rfl, List.length_nil]
  | cons d t ih =>
    rw [List.cons_append, idxOfC,
      if_neg (fun h => hp (by rw [← h]; exact List.mem_cons_self d t))]
    rw [ih (fun hm => hp (List.mem_cons_of_mem d hm))]
    rfl

theorem getLast?_append_ne (l1 l2 : Str) (h : l2 ≠ []) :
    (l1 ++ l2).getLast? = l2.getLast? := by
  rw [← List.head?_reverse, ← List.head?_reverse, List.reverse_append]
  cases hr : l2.reverse with
  | nil => exact absurd (by simpa using hr) h
  | cons a t => rfl

theorem dropLit_self (k r : Str) : dropLit k (k ++ r) = some r := by
  induction k with
  | nil => rfl
  | cons c t ih => rw [List.cons_append, dropLit, if_pos rfl, ih]

theorem isDigit_class (c : Char) (h : c.isDigit = true) :
    c.isWhitespace = false ∧ c ≠ '-' ∧ c ≠ '+' ∧ c ≠ '.' ∧ c ≠ '#' ∧
      c ≠ 'T' ∧ c ≠ 'L' ∧ c ≠ 'D' := by
  refine ⟨?_, ?_, ?_, ?_, ?_, ?_, ?_, ?_⟩
  · by_contra hw
    have hw2 : c.isWhitespace = true := by simpa using hw
    have h3 : ((c = ' ' ∨ c = '\t') ∨ c = '\r') ∨ c = '\n' := by
      simpa [Char.isWhitespace] using hw2
    rcases h3 with ((rfl | rfl) | rfl) | rfl <;> exact absurd h (by decide)
  all_goals rintro rfl
  all_goals exact absurd h (by decide)

theorem padZeros_all_digits (k : ℕ) (l : Str) (h : ∀ c ∈ l, c.isDigit = true) :
    ∀ c ∈ padZeros k l, c.isDigit = true := by
  intro c hc
  rw [padZeros, List.mem_append] at hc
  rcases hc with hc | hc
  · rw [List.eq_of_mem_replicate hc]
    decide
  · exact h c hc

theorem padZeros_len (k : ℕ) (l : Str) (h : l.length ≤ k) :
    (padZeros k l).length = k := by
  rw [padZeros, List.length_append, List.length_replicate]
  omega

theorem exists_getLast_of_ne (l : Str) (h : l ≠ []) :
    ∃ c, l.getLast? = some c ∧ c ∈ l := by
  cases hr : l.reverse with
  | nil => exact absurd (by simpa using hr) h
  | cons a t =>
    refine ⟨a, ?_, ?_⟩
    · rw [← List.head?_reverse, hr]
      rfl
    · rw [← List.mem_reverse, hr]
      exact List.mem_cons_self a t

theorem ofDigits_zeros (j : ℕ) : Nat.ofDigits 10 (List.replicate j 0) = 0 := by
  induction j with
  | zero => rfl
  | succ n ih =>
    rw [List.replicate_succ, Nat.ofDigits_cons, ih]

theorem digitsVal_padZeros (k : ℕ) (l : Str) :
    digitsVal (padZeros k l) = digitsVal l := by
  unfold digitsVal padZeros
  rw [List.map_append, List.reverse_append]
  have hrep : (List.replicate (k - l.length) '0').map (fun c => c.toNat - 48) =
      List.replicate (k - l.length) 0 := by
    rw [List.map_replicate]
    congr 1
  rw [hrep, List.reverse_replicate, Nat.ofDigits_append, ofDigits_zeros]
  simp

theorem fracVal_padZeros (m : ℕ) (hm : m < 1000000) :
    fracVal (padZeros 6 (natRepr m)) = (m : ℚ) / 1000000 := by
  unfold fracVal
  rw [digitsVal_padZeros, digitsVal_natRepr,
    padZeros_len 6 _ (natRepr_len_le m 6 (by norm_num) (by norm_num [hm]))]
  norm_num

theorem fmtF_chars (q : ℚ) : ∀ c ∈ fmtF q, c = '-' ∨ c = '.' ∨ c.isDigit = true := by
  intro c hc
  rw [fmtF, List.append_assoc, List.mem_append] at hc
  rcases hc with hc0 | hc1
  · split at hc0
    · simp only [List.mem_singleton] at hc0
      exact Or.inl hc0
    · simp at hc0
  · rcases List.mem_append.mp hc1 with hcn | hcp
    · exact Or.inr (Or.inr (natRepr_all_digits _ c hcn))
    · rcases List.mem_cons.mp hcp with rfl | hcp2
      · exact Or.inr (Or.inl rfl)
      · exact Or.inr (Or.inr
          (padZeros_all_digits 6 _ (natRepr_all_digits _) c hcp2))

theorem fmtF_noWs (q : ℚ) : ∀ c ∈ fmtF q, c.isWhitespace = false := by
  intro c hc
  rcases fmtF_chars q c hc with rfl | rfl | hd
  · decide
  · decide
  · exact (isDigit_class c hd).1

theorem fmtF_head (q : ℚ) :
    ∃ c, (fmtF q).head? = some c ∧ (c = '-' ∨ c.isDigit = true) := by
  rw [fmtF]
  split
  · exact ⟨'-', rfl, Or.inl rfl⟩
  · rcases hnr : natRepr (n6 q / 1000000) with _ | ⟨c, t⟩
    · exact absurd hnr (natRepr_ne_nil _)
    · refine ⟨c, by simp, Or.inr ?_⟩
      exact natRepr_all_digits _ c (by rw [hnr]; exact List.mem_cons_self c t)

theorem fmtF_ne_nil (q : ℚ) : fmtF q ≠ [] := by
  obtain ⟨c, hc, -⟩ := fmtF_head q
  intro h
  rw [h] at hc
  exact Option.noConfusion hc

theorem fmtF_last (q : ℚ) :
    ∃ c, (fmtF q).getLast? = some c ∧ c.isDigit = true := by
  have hlen : (padZeros 6 (natRepr (n6 q % 1000000))).length = 6 :=
    padZeros_len 6 _ (natRepr_len_le _ 6 (by norm_num)
      (by have := Nat.mod_lt (n6 q) (show 0 < 1000000 by norm_num); norm_num [this]))
  have hFne : padZeros 6 (natRepr (n6 q % 1000000)) ≠ [] := by
    intro hc
    rw [hc] at hlen
    simp at hlen
  obtain ⟨c, hc1, hc2⟩ := exists_getLast_of_ne _ hFne
  refine ⟨c, ?_, padZeros_all_digits 6 _ (natRepr_all_digits _) c hc2⟩
  rw [fmtF, List.append_assoc]
  rw [getLast?_append_ne _ _ (by simp)]
  rw [getLast?_append_ne _ _ (by simp)]
  show (['.'] ++ padZeros 6 (natRepr (n6 q % 1000000))).getLast? = some c
  rw [getLast?_append_ne _ _ hFne]
  exact hc1

theorem not_sign_head_append (l r : Str) (hne : l ≠ [])
    (hd : ∀ c ∈ l, c.isDigit = true) :
    ¬((l ++ r).head? = some '-' ∨ (l ++ r).head? = some '+') := by
  cases l with
  | nil => exact absurd rfl hne
  | cons c t =>
    have hc := hd c (List.mem_cons_self c t)
    obtain ⟨-, h1, h2, -⟩ := isDigit_class c hc
    rintro (h | h) <;> rw [List.cons_append, List.head?_cons] at h
    · exact h1 (Option.some.inj h)
    · exact h2 (Option.some.inj h)

theorem parseIntTok_digits (l r : Str) (hne : l ≠ [])
    (hd : ∀ c ∈ l, c.isDigit = true)
    (hr : ∀ c, r.head? = some c → c.isDigit = false) :
    parseIntTok (l ++ r) = some ((digitsVal l : ℤ), r) := by
  have hsign := not_sign_head_append l r hne hd
  rw [parseIntTok]
  simp only [if_neg hsign]
  rw [takeWhile_append_all _ _ _ hd, takeWhile_head_neg _ _ hr, List.append_nil,
    dropWhile_append_all _ _ _ hd, dropWhile_head_neg _ _ hr]
  rw [if_neg hne, if_neg (fun h => hsign (Or.inl h))]

theorem parseIntTok_dash_digits (l : Str) (hne : l ≠ [])
    (hd : ∀ c ∈ l, c.isDigit = true) :
    parseIntTok ('-' :: l) = some (-(digitsVal l : ℤ), []) := by
  rw [parseIntTok]
  simp only [List.head?_cons, List.tail_cons, Option.some.injEq]
  rw [if_pos (Or.inl trivial : True ∨ ('-' = '+'))]
  rw [takeWhile_all_eq _ _ hd, dropWhile_all_nil _ _ hd]
  rw [if_neg hne, if_pos trivial]

theorem parseIntTok_intRepr (n : ℤ) : parseIntTok (intRepr n) = some (n, []) := by
  rw [intRepr]
  split
  · next hn =>
    rw [parseIntTok_dash_digits _ (natRepr_ne_nil _) (natRepr_all_digits _),
      digitsVal_natRepr]
    have h2 : (-(n.natAbs : ℤ)) = n := by omega
    rw [h2]
  · next hn =>
    have h := parseIntTok_digits (natRepr n.natAbs) [] (natRepr_ne_nil _)
      (natRepr_all_digits _) (fun c hc => Option.noConfusion hc)
    rw [List.append_nil] at h
    rw [h, digitsVal_natRepr]
    have h2 : ((n.natAbs : ℤ)) = n := by omega
    rw [h2]

theorem parseFloatTok_pos (I F r : Str) (hIne : I ≠ [])
    (hI : ∀ c ∈ I, c.isDigit = true) (hF : ∀ c ∈ F, c.isDigit = true)
    (hr : ∀ c, r.head? = some c → c.isDigit = false) :
    parseFloatTok (I ++ '.' :: (F ++ r)) =
      some ((digitsVal I : ℚ) + fracVal F, r) := by
  have hsign := not_sign_head_append I ('.' :: (F ++ r)) hIne hI
  rw [parseFloatTok]
  simp only [if_neg hsign]
  rw [takeWhile_append_all _ _ _ hI, takeWhile_head_neg _ _ (fun c hc => by
    rw [List.head?_cons] at hc
    rw [← Option.some.inj hc]
    decide), List.append_nil,
    dropWhile_append_all _ _ _ hI, dropWhile_head_neg _ _ (fun c hc => by
    rw [List.head?_cons] at hc
    rw [← Option.some.inj hc]
    decide)]
  rw [List.tail_cons, takeWhile_append_all _ _ _ hF, takeWhile_head_neg _ _ hr,
    List.append_nil, dropWhile_append_all _ _ _ hF, dropWhile_head_neg _ _ hr]
  rw [if_pos (show ('.' :: (F ++ r) : Str).head? = some '.' from rfl)]
  rw [if_neg (by rintro ⟨h1, -⟩; exact hIne h1)]
  rw [if_neg (fun h => hsign (Or.inl h))]

theorem parseFloatTok_neg (I F r : Str) (hIne : I ≠ [])
    (hI : ∀ c ∈ I, c.isDigit = true) (hF : ∀ c ∈ F, c.isDigit = true)
    (hr : ∀ c, r.head? = some c → c.isDigit = false) :
    parseFloatTok ('-' :: (I ++ '.' :: (F ++ r))) =
      some (-((digitsVal I : ℚ) + fracVal F), r) := by
  rw [parseFloatTok]
  simp only [List.head?_cons, List.tail_cons, Option.some.injEq]
  rw [if_pos (Or.inl trivial : True ∨ ('-' = '+'))]
  rw [takeWhile_append_all _ _ _ hI, takeWhile_head_neg _ _ (fun c hc => by
    rw [List.head?_cons] at hc
    rw [← Option.some.inj hc]
    decide), List.append_nil,
    dropWhile_append_all _ _ _ hI, dropWhile_head_neg _ _ (fun c hc => by
    rw [List.head?_cons] at hc
    rw [← Option.some.inj hc]
    decide)]
  rw [List.tail_cons, takeWhile_append_all _ _ _ hF, takeWhile_head_neg _ _ hr,
    List.append_nil, dropWhile_append_all _ _ _ hF, dropWhile_head_neg _ _ hr]
  rw [if_pos (show ('.' :: (F ++ r) : Str).head? = some '.' from rfl)]
  rw [if_neg (by rintro ⟨h1, -⟩; exact hIne h1)]
  rw [if_pos trivial]

theorem parseFloatTok_fmtF (q : ℚ) (r : Str)
    (hr : ∀ c, r.head? = some c → c.isDigit = false) :
    parseFloatTok (fmtF q ++ r) = some (round6 q, r) := by
  have hm : n6 q % 1000000 < 1000000 := Nat.mod_lt _ (by norm_num)
  have hval : (digitsVal (natRepr (n6 q / 1000000)) : ℚ) +
      fracVal (padZeros 6 (natRepr (n6 q % 1000000))) = (n6 q : ℚ) / 1000000 := by
    rw [digitsVal_natRepr, fracVal_padZeros _ hm]
    have hdm := Nat.div_add_mod (n6 q) 1000000
    have hdm2 : ((1000000 * (n6 q / 1000000) + n6 q % 1000000 : ℕ) : ℚ) = (n6 q : ℚ) := by
      rw [hdm]
    push_cast at hdm2
    field_simp
    linarith
  rw [fmtF]
  split
  · next hq =>
    simp only [List.append_assoc, List.cons_append, List.nil_append]
    rw [parseFloatTok_neg _ _ _ (natRepr_ne_nil _) (natRepr_all_digits _)
      (padZeros_all_digits 6 _ (natRepr_all_digits _)) hr, hval]
    rw [round6, if_pos hq, neg_div]
  · next hq =>
    simp only [List.append_assoc, List.cons_append, List.nil_append]
    rw [parseFloatTok_pos _ _ _ (natRepr_ne_nil _) (natRepr_all_digits _)
      (padZeros_all_digits 6 _ (natRepr_all_digits _)) hr, hval]
    rw [round6, if_neg hq]

theorem head_ne_ws_append (l1 l2 : Str) (h : ∀ c ∈ l1, c.isWhitespace = false)
    (hne : l1 ≠ []) : ∀ c, (l1 ++ l2).head? = some c → c.isWhitespace = false := by
  cases l1 with
  | nil => exact absurd rfl hne
  | cons d t =>
    intro c hc
    rw [List.cons_append, List.head?_cons] at hc
    rw [← Option.some.inj hc]
    exact h d (List.mem_cons_self d t)

theorem mem_of_head (l : Str) (c : Char) (h : l.head? = some c) : c ∈ l := by
  cases l with
  | nil => exact Option.noConfusion h
  | cons d t =>
    rw [List.head?_cons] at h
    rw [← Option.some.inj h]
    exact List.mem_cons_self d t

theorem parse3F_fmtSample (s : Sample) :
    parse3FAfter (fmtSample s) = some (round6S s) := by
  have h0 : (fmtF s.R ++ ' ' :: (fmtF s.G ++ ' ' :: fmtF s.B)).dropWhile
      Char.isWhitespace = fmtF s.R ++ ' ' :: (fmtF s.G ++ ' ' :: fmtF s.B) :=
    dropWhile_head_neg _ _ (head_ne_ws_append _ _ (fmtF_noWs s.R) (fmtF_ne_nil s.R))
  have h1 : parseFloatTok (fmtF s.R ++ ' ' :: (fmtF s.G ++ ' ' :: fmtF s.B))
      = some (round6 s.R, ' ' :: (fmtF s.G ++ ' ' :: fmtF s.B)) :=
    parseFloatTok_fmtF _ _ (fun c hc => by
      rw [List.head?_cons] at hc
      rw [← Option.some.inj hc]
      decide)
  have h2 : (' ' :: (fmtF s.G ++ ' ' :: fmtF s.B) : Str).dropWhile Char.isWhitespace
      = fmtF s.G ++ ' ' :: fmtF s.B := by
    rw [List.dropWhile_cons, if_pos (by decide)]
    exact dropWhile_head_neg _ _ (head_ne_ws_append _ _ (fmtF_noWs s.G) (fmtF_ne_nil s.G))
  have h3 : parseFloatTok (fmtF s.G ++ ' ' :: fmtF s.B)
      = some (round6 s.G, ' ' :: fmtF s.B) :=
    parseFloatTok_fmtF _ _ (fun c hc => by
      rw [List.head?_cons] at hc
      rw [← Option.some.inj hc]
      decide)
  have h4 : (' ' :: fmtF s.B : Str).dropWhile Char.isWhitespace = fmtF s.B := by
    rw [List.dropWhile_cons, if_pos (by decide)]
    exact dropWhile_head_neg _ _ (fun c hc => fmtF_noWs s.B c (mem_of_head _ _ hc))
  have h5 : parseFloatTok (fmtF s.B) = some (round6 s.B, []) := by
    have h := parseFloatTok_fmtF s.B [] (fun c hc => Option.noConfusion hc)
    rwa [List.append_nil] at h
  rw [parse3FAfter, fmtSample]
  simp [h0, h1, h2, h3, h4, h5, round6S]

theorem head_append_ne (l1 l2 : Str) (h : l1 ≠ []) :
    (l1 ++ l2).head? = l1.head? := by
  cases l1 with
  | nil => exact absurd rfl h
  | cons a t => rfl

theorem natRepr_last (n : ℕ) :
    ∃ c, (natRepr n).getLast? = some c ∧ c.isDigit = true := by
  obtain ⟨c, h1, h2⟩ := exists_getLast_of_ne _ (natRepr_ne_nil n)
  exact ⟨c, h1, natRepr_all_digits n c h2⟩

theorem intRepr_ne_nil (n : ℤ) : intRepr n ≠ [] := by
  rw [intRepr]
  split
  · simp
  · exact natRepr_ne_nil _

theorem intRepr_head (n : ℤ) :
    ∃ c, (intRepr n).head? = some c ∧ (c = '-' ∨ c.isDigit = true) := by
  rw [intRepr]
  split
  · exact ⟨'-', rfl, Or.inl rfl⟩
  · rcases hnr : natRepr n.natAbs with _ | ⟨c, t⟩
    · exact absurd hnr (natRepr_ne_nil _)
    · refine ⟨c, by simp, Or.inr ?_⟩
      exact natRepr_all_digits _ c (by rw [hnr]; exact List.mem_cons_self c t)

theorem intRepr_last (n : ℤ) :
    ∃ c, (intRepr n).getLast? = some c ∧ c.isDigit = true := by
  rw [intRepr]
  split
  · obtain ⟨c, h1, h2⟩ := natRepr_last n.natAbs
    refine ⟨c, ?_, h2⟩
    rw [← List.singleton_append, getLast?_append_ne _ _ (natRepr_ne_nil _)]
    exact h1
  · exact natRepr_last n.natAbs

theorem fmtSample_head (s : Sample) :
    ∃ c, (fmtSample s).head? = some c ∧ (c = '-' ∨ c.isDigit = true) := by
  obtain ⟨c, h1, h2⟩ := fmtF_head s.R
  refine ⟨c, ?_, h2⟩
  rw [fmtSample, head_append_ne _ _ (by simp [fmtF_ne_nil s.R]),
    head_append_ne _ _ (fmtF_ne_nil s.R)]
  exact h1

theorem fmtSample_ne_nil (s : Sample) : fmtSample s ≠ [] := by
  obtain ⟨c, hc, -⟩ := fmtSample_head s
  intro h
  rw [h] at hc
  exact Option.noConfusion hc

theorem fmtSample_last (s : Sample) :
    ∃ c, (fmtSample s).getLast? = some c ∧ c.isDigit = true := by
  obtain ⟨c, h1, h2⟩ := fmtF_last s.B
  refine ⟨c, ?_, h2⟩
  rw [fmtSample, getLast?_append_ne _ _ (by simp), ← List.singleton_append,
    getLast?_append_ne _ _ (fmtF_ne_nil s.B)]
  exact h1

theorem fmtF_ne_kw (q : ℚ) (kw : Str) (d : Char) (hkw : kw.head? = some d)
    (hd : d = 'T' ∨ d = 'L' ∨ d = 'D') : fmtF q ≠ kw := by
  obtain ⟨c, hc1, hc2⟩ := fmtF_head q
  intro he
  rw [he, hkw] at hc1
  have hcd : d = c := Option.some.inj hc1
  subst hcd
  rcases hc2 with rfl | hdig
  · rcases hd with h | h | h <;> exact absurd h (by decide)
  · obtain ⟨-, -, -, -, -, hT, hL, hD⟩ := isDigit_class d hdig
    rcases hd with rfl | rfl | rfl
    · exact hT rfl
    · exact hL rfl
    · exact hD rfl

theorem fmtSample_ne_kw (s : Sample) (kw : Str) (d : Char) (hkw : kw.head? = some d)
    (hd : d = 'T' ∨ d = 'L' ∨ d = 'D') : fmtF s.R ≠ kw :=
  fmtF_ne_kw s.R kw d hkw hd

theorem splitNl_ne_nil (l : Str) : splitNl l ≠ [] := by
  cases l with
  | nil => simp [splitNl]
  | cons c r =>
    rw [splitNl]
    split
    · simp
    · split <;> simp

theorem joinNl_splitNl (s : Str) : joinNl (splitNl s) = s := by
  induction s with
  | nil => rfl
  | cons c r ih =>
    rw [splitNl]
    split
    · next hc =>
      subst hc
      have hstep : joinNl ([] :: splitNl r) = '\n' :: joinNl (splitNl r) := by
        cases hsp : splitNl r with
        | nil => exact absurd hsp (splitNl_ne_nil r)
        | cons a t => rfl
      rw [hstep, ih]
    · next hc =>
      cases hsp : splitNl r with
      | nil => exact absurd hsp (splitNl_ne_nil r)
      | cons h2 t2 =>
        show joinNl ((c :: h2) :: t2) = c :: r
        have hjj : joinNl ((c :: h2) :: t2) = c :: joinNl (h2 :: t2) := by
          cases t2 with
          | nil => rfl
          | cons x t3 => rfl
        rw [hjj, ← hsp, ih]

theorem joinNl_cons_cons (a m : Str) (t : List Str) :
    joinNl ((a ++ '\n' :: m) :: t) = a ++ '\n' :: joinNl (m :: t) := by
  cases t with
  | nil => rfl
  | cons x t2 =>
    show (a ++ '\n' :: m) ++ '\n' :: joinNl (x :: t2) =
      a ++ '\n' :: (m ++ '\n' :: joinNl (x :: t2))
    simp [List.append_assoc]

theorem metaFold_acc (ms : List Str) : ∀ (a : Str), a ≠ [] →
    ms.foldl (fun a m => if a = [] then m else a ++ '\n' :: m) a = joinNl (a :: ms) := by
  induction ms with
  | nil =>
    intro a ha
    rfl
  | cons m t ih =>
    intro a ha
    rw [List.foldl_cons,
      show (if a = [] then m else a ++ '\n' :: m) = a ++ '\n' :: m from if_neg ha]
    rw [ih _ (by simp), joinNl_cons_cons]
    rfl

theorem metaFold_join (ms : List Str) (hne : ms ≠ []) (h : ∀ m ∈ ms, m ≠ []) :
    ms.foldl (fun a m => if a = [] then m else a ++ '\n' :: m) [] = joinNl ms := by
  cases ms with
  | nil => exact absurd rfl hne
  | cons m t =>
    rw [List.foldl_cons, if_pos rfl]
    exact metaFold_acc t m (h m (List.mem_cons_self m t))

theorem titleOf_quoted (p T : Str) (hp : '"' ∉ p) :
    titleOf (p ++ '"' :: (T ++ ['"'])) = some T := by
  have hs : idxOfC '"' (p ++ '"' :: (T ++ ['"'])) = some p.length :=
    idxOfC_not_mem_append '"' p hp _
  have hshape : p ++ '"' :: (T ++ ['"']) = (p ++ '"' :: T) ++ ['"'] := by
    simp
  have hlen : ((p ++ '"' :: T) ++ ['"']).length = p.length + T.length + 2 := by
    simp only [List.length_append, List.length_cons, List.length_nil]
    omega
  have he : lastIdxOfC '"' (p ++ '"' :: (T ++ ['"'])) =
      some (p.length + 1 + T.length) := by
    rw [lastIdxOfC, hshape, List.reverse_append,
      show ((['"'] : Str).reverse) = ['"'] from rfl, List.singleton_append,
      idxOfC, if_pos rfl]
    show some (((p ++ '"' :: T) ++ ['"']).length - 1 - 0) = some (p.length + 1 + T.length)
    rw [hlen, show p.length + T.length + 2 - 1 - 0 = p.length + 1 + T.length from by omega]
  simp only [titleOf, hs, he]
  rw [if_pos (by omega)]
  rw [show p.length + 1 + T.length - p.length - 1 = T.length from by omega]
  rw [show p ++ '"' :: (T ++ ['"']) = (p ++ ['"']) ++ (T ++ ['"']) from by simp]
  rw [show p.length + 1 = (p ++ ['"']).length from by simp]
  rw [List.drop_left, List.take_left]

theorem parse3F_ws (rest : Str) :
    parse3FAfter (' ' :: rest) = parse3FAfter rest := by
  rw [parse3FAfter, parse3FAfter, List.dropWhile_cons, if_pos (by decide)]

theorem parseSizeLine_emit (n : ℤ) :
    parseSizeLine (kwSIZE ++ ' ' :: intRepr n) = some n := by
  have hdw : (' ' :: intRepr n : Str).dropWhile Char.isWhitespace = intRepr n := by
    rw [List.dropWhile_cons, if_pos (by decide)]
    refine dropWhile_head_neg _ _ ?_
    intro c hc
    obtain ⟨d, hd1, hd2⟩ := intRepr_head n
    rw [hd1] at hc
    rw [← Option.some.inj hc]
    rcases hd2 with rfl | hdig
    · decide
    · exact (isDigit_class d hdig).1
  rw [parseSizeLine, dropLit_self]
  simp [hdw, parseIntTok_intRepr]

theorem parseDomLine_emit (kw : Str) (s : Sample) :
    parseDomLine kw (kw ++ ' ' :: fmtSample s) = some (round6S s) := by
  rw [parseDomLine, dropLit_self]
  simp [parse3F_ws, parse3F_fmtSample]

theorem cons_ne_kw (c : Char) (w kw : Str) (d : Char) (hkw : kw.head? = some d)
    (hne : c ≠ d) : c :: w ≠ kw := by
  intro he
  rw [← he, List.head?_cons] at hkw
  exact hne (Option.some.inj hkw)

theorem lineKind_of_trim (raw f : Str) (rest : List Str)
    (htrim : trim raw = raw) (hne : raw ≠ []) (hf : fields raw = f :: rest) :
    lineKind raw =
      (if f = kwTITLE then .title (titleOf raw)
      else if f = kwSIZE then .size (parseSizeLine raw)
      else if f = kwDMIN then .dmin (parseDomLine kwDMIN raw)
      else if f = kwDMAX then .dmax (parseDomLine kwDMAX raw)
      else if raw.head? = some '#' then .meta raw
      else if (f :: rest).length = 3 then .samp (parseSampleLine raw)
      else .bad) := by
  rw [lineKind]
  simp only [htrim, if_neg hne, hf]

theorem lineKind_blank : lineKind [] = .empty := by decide

theorem lineKind_title (T : Str) :
    lineKind (kwTITLE ++ ' ' :: '"' :: (T ++ ['"'])) = .title (some T) := by
  have hne : (kwTITLE ++ ' ' :: '"' :: (T ++ ['"'])) ≠ [] := by simp [kwTITLE]
  have hhead : ∀ c, (kwTITLE ++ ' ' :: '"' :: (T ++ ['"'])).head? = some c →
      c.isWhitespace = false := by
    intro c hc
    rw [head_append_ne _ _ (by simp [kwTITLE]),
      show kwTITLE.head? = some 'T' from rfl] at hc
    rw [← Option.some.inj hc]
    decide
  have hlast : ∀ c, (kwTITLE ++ ' ' :: '"' :: (T ++ ['"'])).getLast? = some c →
      c.isWhitespace = false := by
    intro c hc
    rw [getLast?_append_ne _ _ (by simp),
      show (' ' :: '"' :: (T ++ ['"']) : Str) = [' ', '"'] ++ (T ++ ['"']) from rfl,
      getLast?_append_ne _ _ (by simp),
      getLast?_append_ne _ _ (by simp),
      show ((['"'] : Str)).getLast? = some '"' from rfl] at hc
    rw [← Option.some.inj hc]
    decide
  have hfields := fields_word kwTITLE (by decide) (by decide) ' ' (by decide)
    ('"' :: (T ++ ['"']))
  rw [lineKind_of_trim _ kwTITLE _ (trim_eq_self _ hhead hlast) hne hfields]
  rw [if_pos rfl]
  rw [show kwTITLE ++ ' ' :: '"' :: (T ++ ['"']) =
    (kwTITLE ++ [' ']) ++ '"' :: (T ++ ['"']) from by simp]
  rw [titleOf_quoted _ _ (by decide)]

theorem lineKind_size (n : ℤ) :
    lineKind (kwSIZE ++ ' ' :: intRepr n) = .size (some n) := by
  have hne : (kwSIZE ++ ' ' :: intRepr n) ≠ [] := by simp [kwSIZE]
  have hhead : ∀ c, (kwSIZE ++ ' ' :: intRepr n).head? = some c →
      c.isWhitespace = false := by
    intro c hc
    rw [head_append_ne _ _ (by simp [kwSIZE]),
      show kwSIZE.head? = some 'L' from rfl] at hc
    rw [← Option.some.inj hc]
    decide
  have hlast : ∀ c, (kwSIZE ++ ' ' :: intRepr n).getLast? = some c →
      c.isWhitespace = false := by
    intro c hc
    obtain ⟨d, hd1, hd2⟩ := intRepr_last n
    rw [getLast?_append_ne _ _ (by simp), ← List.singleton_append,
      getLast?_append_ne _ _ (intRepr_ne_nil n), hd1] at hc
    rw [← Option.some.inj hc]
    exact (isDigit_class d hd2).1
  have hfields := fields_word kwSIZE (by decide) (by decide) ' ' (by decide) (intRepr n)
  rw [lineKind_of_trim _ kwSIZE _ (trim_eq_self _ hhead hlast) hne hfields]
  rw [if_neg (by decide), if_pos rfl, parseSizeLine_emit]

theorem lineKind_dmin (s : Sample) :
    lineKind (kwDMIN ++ ' ' :: fmtSample s) = .dmin (some (round6S s)) := by
  have hne : (kwDMIN ++ ' ' :: fmtSample s) ≠ [] := by simp [kwDMIN]
  have hhead : ∀ c, (kwDMIN ++ ' ' :: fmtSample s).head? = some c →
      c.isWhitespace = false := by
    intro c hc
    rw [head_append_ne _ _ (by simp [kwDMIN]),
      show kwDMIN.head? = some 'D' from rfl] at hc
    rw [← Option.some.inj hc]
    decide
  have hlast : ∀ c, (kwDMIN ++ ' ' :: fmtSample s).getLast? = some c →
      c.isWhitespace = false := by
    intro c hc
    obtain ⟨d, hd1, hd2⟩ := fmtSample_last s
    rw [getLast?_append_ne _ _ (by simp), ← List.singleton_append,
      getLast?_append_ne _ _ (fmtSample_ne_nil s), hd1] at hc
    rw [← Option.some.inj hc]
    exact (isDigit_class d hd2).1
  have hfields := fields_word kwDMIN (by decide) (by decide) ' ' (by decide) (fmtSample s)
  rw [lineKind_of_trim _ kwDMIN _ (trim_eq_self _ hhead hlast) hne hfields]
  rw [if_neg (by decide), if_neg (by decide), if_pos rfl, parseDomLine_emit]

theorem lineKind_dmax (s : Sample) :
    lineKind (kwDMAX ++ ' ' :: fmtSample s) = .dmax (some (round6S s)) := by
  have hne : (kwDMAX ++ ' ' :: fmtSample s) ≠ [] := by simp [kwDMAX]
  have hhead : ∀ c, (kwDMAX ++ ' ' :: fmtSample s).head? = some c →
      c.isWhitespace = false := by
    intro c hc
    rw [head_append_ne _ _ (by simp [kwDMAX]),
      show kwDMAX.head? = some 'D' from rfl] at hc
    rw [← Option.some.inj hc]
    decide
  have hlast : ∀ c, (kwDMAX ++ ' ' :: fmtSample s).getLast? = some c →
      c.isWhitespace = false := by
    intro c hc
    obtain ⟨d, hd1, hd2⟩ := fmtSample_last s
    rw [getLast?_append_ne _ _ (by simp), ← List.singleton_append,
      getLast?_append_ne _ _ (fmtSample_ne_nil s), hd1] at hc
    rw [← Option.some.inj hc]
    exact (isDigit_class d hd2).1
  have hfields := fields_word kwDMAX (by decide) (by decide) ' ' (by decide) (fmtSample s)
  rw [lineKind_of_trim _ kwDMAX _ (trim_eq_self _ hhead hlast) hne hfields]
  rw [if_neg (by decide), if_neg (by decide), if_neg (by decide), if_pos rfl,
    parseDomLine_emit]

theorem lineKind_sample (s : Sample) :
    lineKind (fmtSample s) = .samp (some (round6S s)) := by
  have hne := fmtSample_ne_nil s
  have hhead : ∀ c, (fmtSample s).head? = some c → c.isWhitespace = false := by
    intro c hc
    obtain ⟨d, hd1, hd2⟩ := fmtSample_head s
    rw [hd1] at hc
    rw [← Option.some.inj hc]
    rcases hd2 with rfl | hdig
    · decide
    · exact (isDigit_class d hdig).1
  have hlast : ∀ c, (fmtSample s).getLast? = some c → c.isWhitespace = false := by
    intro c hc
    obtain ⟨d, hd1, hd2⟩ := fmtSample_last s
    rw [hd1] at hc
    rw [← Option.some.inj hc]
    exact (isDigit_class d hd2).1
  have hfields : fields (fmtSample s) = [fmtF s.R, fmtF s.G, fmtF s.B] := by
    rw [fmtSample, List.append_assoc, List.cons_append]
    rw [fields_word (fmtF s.R) (fmtF_noWs s.R) (fmtF_ne_nil s.R) ' ' (by decide) _]
    rw [fields_word (fmtF s.G) (fmtF_noWs s.G) (fmtF_ne_nil s.G) ' ' (by decide) _]
    rw [fields_single (fmtF s.B) (fmtF_noWs s.B) (fmtF_ne_nil s.B)]
  have hhash : ¬(fmtSample s).head? = some '#' := by
    obtain ⟨d, hd1, hd2⟩ := fmtSample_head s
    rw [hd1]
    intro hc
    have hdc : d = '#' := Option.some.inj hc
    rcases hd2 with rfl | hdig
    · exact absurd hdc (by decide)
    · exact (isDigit_class d hdig).2.2.2.2.1 hdc
  rw [lineKind_of_trim _ (fmtF s.R) _ (trim_eq_self _ hhead hlast) hne hfields]
  rw [if_neg (fmtF_ne_kw s.R kwTITLE 'T' rfl (Or.inl rfl)),
    if_neg (fmtF_ne_kw s.R kwSIZE 'L' rfl (Or.inr (Or.inl rfl))),
    if_neg (fmtF_ne_kw s.R kwDMIN 'D' rfl (Or.inr (Or.inr rfl))),
    if_neg (fmtF_ne_kw s.R kwDMAX 'D' rfl (Or.inr (Or.inr rfl))),
    if_neg hhash,
    if_pos (show ([fmtF s.R, fmtF s.G, fmtF s.B] : List Str).length = 3 from rfl),
    parseSampleLine, parse3F_fmtSample]

theorem lineKind_meta (m : Str) (hne : m ≠ []) (htrim : trim m = m)
    (hh : m.head? = some '#') : lineKind m = .meta m := by
  obtain ⟨t, rfl⟩ : ∃ t, m = '#' :: t := by
    cases m with
    | nil => exact absurd rfl hne
    | cons c t =>
      rw [List.head?_cons] at hh
      exact ⟨t, by rw [Option.some.inj hh]⟩
  obtain ⟨w, t2, hfields⟩ := fields_cons_not_ws '#' (by decide) t
  rw [lineKind_of_trim _ ('#' :: w) t2 htrim hne hfields]
  rw [if_neg (cons_ne_kw '#' w kwTITLE 'T' rfl (by decide)),
    if_neg (cons_ne_kw '#' w kwSIZE 'L' rfl (by decide)),
    if_neg (cons_ne_kw '#' w kwDMIN 'D' rfl (by decide)),
    if_neg (cons_ne_kw '#' w kwDMAX 'D' rfl (by decide)),
    if_pos hh]

theorem loadLines_append (ls1 ls2 : List Str) (c0 : Cube) :
    loadLines c0 (ls1 ++ ls2) =
      (match loadLines c0 ls1 with
        | .ok c1 => loadLines c1 ls2
        | .error e => .error e) := by
  induction ls1 generalizing c0 with
  | nil => rfl
  | cons l t ih =>
    rw [List.cons_append, loadLines, loadLines]
    cases hstep : loadStep c0 l with
    | ok c2 => exact ih c2
    | error e => rfl

theorem loadLines_sampleBlock (ss : List Sample) (c0 : Cube) :
    loadLines c0 (ss.map fmtSample) =
      .ok { c0 with Samples := c0.Samples ++ ss.map round6S } := by
  induction ss generalizing c0 with
  | nil =>
    show Except.ok c0 = _
    rw [List.map_nil, List.append_nil]
  | cons s t ih =>
    rw [List.map_cons, List.map_cons, loadLines, loadStep, lineKind_sample]
    show loadLines { c0 with Samples := c0.Samples ++ [round6S s] } (t.map fmtSample) = _
    rw [ih]
    simp [List.append_assoc]

theorem loadLines_metaBlock (ms : List Str) (c0 : Cube) (X : Str)
    (h : ∀ m ∈ ms, lineKind m = .meta m)
    (hX : ms.foldl (fun a m => if a = [] then m else a ++ '\n' :: m) c0.Meta = X) :
    loadLines c0 ms = .ok { c0 with Meta := X } := by
  subst hX
  induction ms generalizing c0 with
  | nil =>
    show Except.ok c0 = _
    rw [List.foldl_nil]
  | cons m t ih =>
    rw [loadLines, loadStep, h m (List.mem_cons_self m t)]
    show loadLines { c0 with Meta := if c0.Meta = [] then m else c0.Meta ++ '\n' :: m } t = _
    rw [ih _ (fun x hx => h x (List.mem_cons_of_mem m hx))]
    rfl

theorem loadLines_tail (c1 : Cube) (n : ℤ) (dmn dmx : Sample) (ss : List Sample) :
    loadLines c1 ((kwSIZE ++ ' ' :: intRepr n) :: [] ::
      (kwDMIN ++ ' ' :: fmtSample dmn) :: (kwDMAX ++ ' ' :: fmtSample dmx) :: [] ::
      ss.map fmtSample) =
      .ok { c1 with
        LUT3Dsize := n
        DomainMin := round6S dmn
        DomainMax := round6S dmx
        Samples := c1.Samples ++ ss.map round6S } := by
  rw [loadLines, loadStep, lineKind_size]
  show loadLines { c1 with LUT3Dsize := n } ([] ::
    (kwDMIN ++ ' ' :: fmtSample dmn) :: (kwDMAX ++ ' ' :: fmtSample dmx) :: [] ::
    ss.map fmtSample) = _
  rw [loadLines, loadStep, lineKind_blank]
  show loadLines { c1 with LUT3Dsize := n }
    ((kwDMIN ++ ' ' :: fmtSample dmn) :: (kwDMAX ++ ' ' :: fmtSample dmx) :: [] ::
    ss.map fmtSample) = _
  rw [loadLines, loadStep, lineKind_dmin]
  show loadLines { c1 with LUT3Dsize := n, DomainMin := round6S dmn }
    ((kwDMAX ++ ' ' :: fmtSample dmx) :: [] :: ss.map fmtSample) = _
  rw [loadLines, loadStep, lineKind_dmax]
  show loadLines { c1 with
    LUT3Dsize := n
    DomainMin := round6S dmn
    DomainMax := round6S dmx } ([] :: ss.map fmtSample) = _
  rw [loadLines, loadStep, lineKind_blank]
  show loadLines { c1 with
    LUT3Dsize := n
    DomainMin := round6S dmn
    DomainMax := round6S dmx } (ss.map fmtSample) = _
  rw [loadLines_sampleBlock]

theorem loadLines_metaTail (Ti Me : Str) (n : ℤ) (dmn dmx : Sample) (ss : List Sample)
    (hM : Me = [] ∨ ∀ m ∈ splitNl Me, m ≠ [] ∧ trim m = m ∧ m.head? = some '#') :
    loadLines ⟨Ti, [], 0, ⟨0, 0, 0⟩, ⟨0, 0, 0⟩, []⟩
      ((if Me = [] then [] else splitNl Me) ++
        ((kwSIZE ++ ' ' :: intRepr n) :: [] ::
         (kwDMIN ++ ' ' :: fmtSample dmn) :: (kwDMAX ++ ' ' :: fmtSample dmx) :: [] ::
         ss.map fmtSample)) =
      .ok ⟨Ti, Me, n, round6S dmn, round6S dmx, ss.map round6S⟩ := by
  by_cases hMe : Me = []
  · rw [if_pos hMe, List.nil_append, loadLines_tail, hMe]
    rfl
  · rw [if_neg hMe]
    have hMl := hM.resolve_left hMe
    rw [loadLines_append]
    rw [loadLines_metaBlock _ _ Me
      (fun m hm => lineKind_meta m (hMl m hm).1 (hMl m hm).2.1 (hMl m hm).2.2)
      (by
        show (splitNl Me).foldl (fun a m => if a = [] then m else a ++ '\n' :: m) [] = Me
        rw [metaFold_join _ (splitNl_ne_nil Me) (fun m hm => (hMl m hm).1), joinNl_splitNl])]
    show loadLines ⟨Ti, Me, 0, ⟨0, 0, 0⟩, ⟨0, 0, 0⟩, []⟩
      ((kwSIZE ++ ' ' :: intRepr n) :: [] ::
       (kwDMIN ++ ' ' :: fmtSample dmn) :: (kwDMAX ++ ' ' :: fmtSample dmx) :: [] ::
       ss.map fmtSample) = _
    rw [loadLines_tail]
    rfl

/-- C3 amended: the Load of the lines WriteTo emits succeeds and returns the
original Cube up to the 6 decimal %f rounding of every float channel,
provided the Title holds no newline and the Meta block is empty or consists
of nonempty trimmed lines starting with a hash; Title, Meta and LUT3Dsize
round trip exactly, the domains and every sample in order round trip to
their 6 decimal rounding. -/
theorem c3_roundtrip (c : Cube)
    (hT : '\n' ∉ c.Title)
    (hM : c.Meta = [] ∨ ∀ m ∈ splitNl c.Meta, m ≠ [] ∧ trim m = m ∧ m.head? = some '#') :
    Load (writeLines c) = Except.ok
      ⟨c.Title, c.Meta, c.LUT3Dsize, round6S c.DomainMin, round6S c.DomainMax,
        c.Samples.map round6S⟩ := by
  rw [Load, writeLines]
  simp only [List.append_assoc, List.cons_append, List.nil_append]
  by_cases hTi : c.Title = []
  · rw [if_pos hTi, List.nil_append, hTi]
    exact loadLines_metaTail [] c.Meta c.LUT3Dsize c.DomainMin c.DomainMax c.Samples hM
  · rw [if_neg hTi, List.singleton_append, loadLines, loadStep, lineKind_title]
    show loadLines { cube0 with Title := c.Title }
      ((if c.Meta = [] then [] else splitNl c.Meta) ++
        ((kwSIZE ++ ' ' :: intRepr c.LUT3Dsize) :: ([] : Str) ::
         (kwDMIN ++ ' ' :: fmtSample c.DomainMin) ::
         (kwDMAX ++ ' ' :: fmtSample c.DomainMax) :: ([] : Str) ::
         c.Samples.map fmtSample)) = _
    exact loadLines_metaTail c.Title c.Meta c.LUT3Dsize c.DomainMin c.DomainMax
      c.Samples hM

/-- C3 counterexample: a Cube whose Meta block is the single character x,
as any caller may construct, serializes to a file whose Meta line is not a
hash comment; loading it back fails with the unrecognised line error, so
the round trip does not hold for every Cube. -/
theorem c3_counterexample :
    Load (writeLines ⟨[], ['x'], 2, ⟨0, 0, 0⟩, ⟨0, 0, 0⟩, []⟩) =
      Except.error CubeErr.unrecognisedLine := by
  have h1 : writeLines ⟨[], ['x'], 2, ⟨0, 0, 0⟩, ⟨0, 0, 0⟩, []⟩ =
      ['x'] :: (kwSIZE ++ ' ' :: intRepr 2) ::
      ([] : Str) :: (kwDMIN ++ ' ' :: fmtSample ⟨0, 0, 0⟩) ::
      (kwDMAX ++ ' ' :: fmtSample ⟨0, 0, 0⟩) :: ([] : Str) :: [] := rfl
  rw [Load, h1, loadLines, loadStep,
    show lineKind ['x'] = LineK.bad from by decide]

/-- C3 witness: the amended round trip applied to a concrete Cube with a
title, a hash comment Meta line and no samples. -/
theorem c3_witness :
    ('\n' ∉ (['t'] : Str)) ∧
    ((['#', 'm'] : Str) = [] ∨ ∀ m ∈ splitNl (['#', 'm'] : Str),
      m ≠ [] ∧ trim m = m ∧ m.head? = some '#') ∧
    Load (writeLines ⟨['t'], ['#', 'm'], 2, ⟨0, 0, 0⟩, ⟨0, 0, 0⟩, []⟩) =
      Except.ok ⟨['t'], ['#', 'm'], 2, round6S ⟨0, 0, 0⟩, round6S ⟨0, 0, 0⟩,
        ([] : List Sample).map round6S⟩ :=
  ⟨by decide, by decide,
    c3_roundtrip ⟨['t'], ['#', 'm'], 2, ⟨0, 0, 0⟩, ⟨0, 0, 0⟩, []⟩ (by decide) (by decide)⟩
